import Mathlib

/-!
# Substring search (`substr_search.hpp`, namespace `av`)

A shallow embedding of the search engines of `substr_search.hpp` together with
the properties of the engines and of the enumeration driver `find_all`.

## Memory model

The source works on raw pointers (`uint8_t *`) and on `size_t` lengths.  A
pointer is embedded as its address, a natural number below `2 ^ 64`; pointer
and `size_t` arithmetic is arithmetic modulo `2 ^ 64`, written out where the
source performs it.  The memory is a function from addresses to bytes that is
undefined (`none`) on the addresses that are not readable; a read of such an
address ends the run with `stop_t.fault`.  Loops are unrolled along a counter
(`fuel`); a loop that is still running when the counter is used up ends the
run with `stop_t.fuel`.  The engines start their loops with `2 ^ 64` steps, as
many as a 64-bit loop variable has values.
-/

namespace av

/-- Number of values of a `size_t`, and of addresses of a pointer. -/
abbrev size_mod : Nat := 2 ^ 64

/-- The constant `std::numeric_limits<size_t>::max()`. -/
def not_found_k : Nat := 2 ^ 64 - 1

/-- A byte, `uint8_t`. -/
abbrev byte_t : Type := Fin 256

/-- The readable memory: the byte stored at an address, `none` where an
address is not readable. -/
abbrev memory_t : Type := Nat → Option byte_t

/-- Ways in which a run ends without a value: a read of an unreadable address,
or a loop that used up its step counter. -/
inductive stop_t where
  | fault : stop_t
  | fuel : stop_t
  deriving DecidableEq, Repr

/-- The outcome of a run: a value, or the reason why there is none. -/
inductive run_t (α : Type) where
  | ok : α → run_t α
  | error : stop_t → run_t α
  deriving DecidableEq, Repr

/-- The struct `span_t`: `data` is the address held by the pointer (`0` for
`nullptr`), `len` the number of bytes. -/
structure span_t where
  data : Nat := 0
  len : Nat := 0
  deriving DecidableEq, Repr

/-- The method `span_t::after_n`. -/
def span_t.after_n (s : span_t) (offset : Nat) : span_t :=
  if offset < s.len then { data := (s.data + offset) % size_mod, len := s.len - offset } else {}

/-- Read of one byte, `*p` for a `uint8_t const *p`. -/
def load8 (mem : memory_t) (p : Nat) : run_t byte_t :=
  match mem p with
  | some v => .ok v
  | none => .error .fault

/-- Read of four bytes as one unsigned integer,
`*reinterpret_cast<uint32_t const *>(p)` (little-endian). -/
def load32 (mem : memory_t) (p : Nat) : run_t Nat :=
  match load8 mem p, load8 mem ((p + 1) % size_mod), load8 mem ((p + 2) % size_mod),
      load8 mem ((p + 3) % size_mod) with
  | .ok b0, .ok b1, .ok b2, .ok b3 =>
      .ok (b0.val + 256 * b1.val + 65536 * b2.val + 16777216 * b3.val)
  | _, _, _, _ => .error .fault

/-- The loop of `are_equal`: `for (; a != a_end && *a == *b; a++, b++);`
followed by `return a_end == a;`. -/
def are_equal_loop (mem : memory_t) (a_end : Nat) : Nat → Nat → Nat → run_t Bool
  | 0, _, _ => .error .fuel
  | fuel + 1, a, b =>
    if a ≠ a_end then
      match load8 mem a, load8 mem b with
      | .ok x, .ok y =>
        if x = y then are_equal_loop mem a_end fuel ((a + 1) % size_mod) ((b + 1) % size_mod)
        else .ok (decide (a_end = a))
      | _, _ => .error .fault
    else .ok (decide (a_end = a))

/-- The function `are_equal` on bytes. -/
def are_equal (mem : memory_t) (a b len : Nat) : run_t Bool :=
  are_equal_loop mem ((a + len) % size_mod) size_mod a b

/-- The loop of `naive_t::next_offset`:
`for (size_t off = 0; off <= haystack.len - needle.len; off++)`. -/
def naive_loop (mem : memory_t) (haystack needle : span_t) : Nat → Nat → run_t Nat
  | 0, _ => .error .fuel
  | fuel + 1, off =>
    if off ≤ (haystack.len + size_mod - needle.len) % size_mod then
      match are_equal mem ((haystack.data + off) % size_mod) needle.data needle.len with
      | .ok true => .ok off
      | .ok false => naive_loop mem haystack needle fuel ((off + 1) % size_mod)
      | .error e => .error e
    else .ok not_found_k

/-- The method `naive_t::next_offset`. -/
def naive_t.next_offset (mem : memory_t) (haystack needle : span_t) : run_t Nat :=
  if haystack.len < needle.len then .ok not_found_k
  else naive_loop mem haystack needle size_mod 0

/-- The loop of `prefixed_t::next_offset`: `for (; h_ptr <= h_end; h_ptr++)`,
with `n_prefix32` the needle's first four bytes read as one integer. -/
def prefixed_loop (mem : memory_t) (haystack needle : span_t) (h_end n_prefix32 : Nat) :
    Nat → Nat → run_t Nat
  | 0, _ => .error .fuel
  | fuel + 1, h_ptr =>
    if h_ptr ≤ h_end then
      match load32 mem h_ptr with
      | .ok w =>
        if n_prefix32 = w then
          match are_equal mem ((h_ptr + 4) % size_mod) ((needle.data + 4) % size_mod)
              ((needle.len + size_mod - 4) % size_mod) with
          | .ok true => .ok ((h_ptr + size_mod - haystack.data) % size_mod)
          | .ok false =>
            prefixed_loop mem haystack needle h_end n_prefix32 fuel ((h_ptr + 1) % size_mod)
          | .error e => .error e
        else prefixed_loop mem haystack needle h_end n_prefix32 fuel ((h_ptr + 1) % size_mod)
      | .error e => .error e
    else .ok not_found_k

/-- The pointer `h_end = haystack.data + haystack.len - needle.len` of the
prefix-filtered and of the block engines. -/
def h_end_of (haystack needle : span_t) : Nat :=
  ((haystack.data + haystack.len) % size_mod + size_mod - needle.len) % size_mod

/-- The method `prefixed_t::next_offset`. -/
def prefixed_t.next_offset (mem : memory_t) (haystack needle : span_t) : run_t Nat :=
  if needle.len < 5 then naive_t.next_offset mem haystack needle
  else
    match load32 mem needle.data with
    | .ok n_prefix32 =>
      prefixed_loop mem haystack needle (h_end_of haystack needle) n_prefix32 size_mod
        haystack.data
    | .error e => .error e

/-- How a block loop ends: with the offset of a match that it returns, or at
the pointer `h_ptr` from which the tail is searched. -/
inductive block_exit_t where
  | found : Nat → block_exit_t
  | tail : Nat → block_exit_t
  deriving DecidableEq, Repr

/-- The scan of one block, shared by the block engines:
`for (size_t i = 0; i < width; i++) if (are_equal(h_ptr + i, needle.data, needle.len))
return i + (h_ptr - haystack.data);`.  The value is `none` when the scan ends
without a return. -/
def block_scan (mem : memory_t) (haystack needle : span_t) (h_ptr width : Nat) :
    Nat → Nat → run_t (Option Nat)
  | 0, _ => .error .fuel
  | fuel + 1, i =>
    if i < width then
      match are_equal mem ((h_ptr + i) % size_mod) needle.data needle.len with
      | .ok true => .ok (some ((i + (h_ptr + size_mod - haystack.data) % size_mod) % size_mod))
      | .ok false => block_scan mem haystack needle h_ptr width fuel (i + 1)
      | .error e => .error e
    else .ok none

/-- The outer loop of a block engine,
`for (; (h_ptr + width) <= h_end; h_ptr += width) { ...; if (any) { scan } }`,
where `any_match h_ptr` computes the condition of the `if` for the block at
`h_ptr`: the count of `prefixed_autovec_t` or the mask of an AVX2 engine. -/
def block_loop (mem : memory_t) (haystack needle : span_t) (h_end width : Nat)
    (any_match : Nat → run_t Bool) : Nat → Nat → run_t block_exit_t
  | 0, _ => .error .fuel
  | fuel + 1, h_ptr =>
    if (h_ptr + width) % size_mod ≤ h_end then
      match any_match h_ptr with
      | .ok true =>
        match block_scan mem haystack needle h_ptr width (width + 1) 0 with
        | .ok (some r) => .ok (.found r)
        | .ok none =>
          block_loop mem haystack needle h_end width any_match fuel ((h_ptr + width) % size_mod)
        | .error e => .error e
      | .ok false =>
        block_loop mem haystack needle h_end width any_match fuel ((h_ptr + width) % size_mod)
      | .error e => .error e
    else .ok (.tail h_ptr)

/-- The end of a block engine: a match found by the block loop is returned;
otherwise `prefixed_t` searches `haystack.after_n(h_ptr - haystack.data)` and
its match, if any, is moved by `h_ptr - haystack.data`. -/
def block_finish (mem : memory_t) (haystack needle : span_t) : run_t block_exit_t → run_t Nat
  | .ok (.found r) => .ok r
  | .ok (.tail h_ptr) =>
    match prefixed_t.next_offset mem
        (haystack.after_n ((h_ptr + size_mod - haystack.data) % size_mod)) needle with
    | .ok last_match =>
      if last_match ≠ not_found_k then
        .ok ((last_match + (h_ptr + size_mod - haystack.data) % size_mod) % size_mod)
      else .ok not_found_k
    | .error e => .error e
  | .error e => .error e

/-- The counting loop of `prefixed_autovec_t`:
`for (size_t i = 0; i < 32; i++) count_matches += (n_prefix == *(uint32_t const *)(h_ptr + i));`. -/
def autovec_count (mem : memory_t) (n_prefix32 h_ptr : Nat) : Nat → Nat → Nat → run_t Nat
  | 0, _, _ => .error .fuel
  | fuel + 1, i, count_matches =>
    if i < 32 then
      match load32 mem ((h_ptr + i) % size_mod) with
      | .ok w =>
        autovec_count mem n_prefix32 h_ptr fuel (i + 1)
          (count_matches + (if n_prefix32 = w then 1 else 0))
      | .error e => .error e
    else .ok count_matches

/-- The condition `if (count_matches)` of `prefixed_autovec_t` for the block at `h_ptr`. -/
def autovec_any (mem : memory_t) (n_prefix32 h_ptr : Nat) : run_t Bool :=
  match autovec_count mem n_prefix32 h_ptr 33 0 0 with
  | .ok count_matches => .ok (decide (count_matches ≠ 0))
  | .error e => .error e

/-- The method `prefixed_autovec_t::next_offset`. -/
def prefixed_autovec_t.next_offset (mem : memory_t) (haystack needle : span_t) : run_t Nat :=
  if needle.len < 5 then naive_t.next_offset mem haystack needle
  else
    match load32 mem needle.data with
    | .ok n_prefix32 =>
      block_finish mem haystack needle
        (block_loop mem haystack needle (h_end_of haystack needle) 32
          (autovec_any mem n_prefix32) size_mod haystack.data)
    | .error e => .error e

/-- A 256-bit register `__m256i`, as its eight 32-bit lanes, lowest first. -/
abbrev m256i_t : Type := List Nat

/-- The intrinsic `_mm256_set1_epi32`: the value in each of the eight lanes. -/
def _mm256_set1_epi32 (v : Nat) : m256i_t := List.replicate 8 v

/-- Read of `k` consecutive 32-bit lanes from address `p` on. -/
def load_lanes (mem : memory_t) : Nat → Nat → run_t m256i_t
  | 0, _ => .ok []
  | k + 1, p =>
    match load32 mem p, load_lanes mem k ((p + 4) % size_mod) with
    | .ok w, .ok ws => .ok (w :: ws)
    | _, _ => .error .fault

/-- The intrinsic `_mm256_loadu_si256`: an unaligned read of 32 bytes. -/
def _mm256_loadu_si256 (mem : memory_t) (p : Nat) : run_t m256i_t := load_lanes mem 8 p

/-- The intrinsic `_mm256_cmpeq_epi32`: a lane is all ones where the two
registers hold the same 32-bit value, and zero elsewhere. -/
def _mm256_cmpeq_epi32 (a b : m256i_t) : m256i_t :=
  List.zipWith (fun x y => if x = y then 4294967295 else 0) a b

/-- The intrinsic `_mm256_or_si256`: bitwise or. -/
def _mm256_or_si256 (a b : m256i_t) : m256i_t := List.zipWith (fun x y => x ||| y) a b

/-- The most significant bits of the four bytes of a lane, lowest byte first. -/
def lane_msbs (v : Nat) : Nat :=
  (v.testBit 7).toNat + 2 * (v.testBit 15).toNat + 4 * (v.testBit 23).toNat +
    8 * (v.testBit 31).toNat

/-- The intrinsic `_mm256_movemask_epi8`: the mask made of the most significant
bit of each of the 32 bytes. -/
def _mm256_movemask_epi8 : m256i_t → Nat
  | [] => 0
  | v :: vs => lane_msbs v + 16 * _mm256_movemask_epi8 vs

/-- The expression `_mm256_cmpeq_epi32(_mm256_loadu_si256((__m256i const *)(p)), n_prefix)`. -/
def load_cmpeq (mem : memory_t) (n_prefix256 : m256i_t) (p : Nat) : run_t m256i_t :=
  match _mm256_loadu_si256 mem p with
  | .ok v => .ok (_mm256_cmpeq_epi32 v n_prefix256)
  | .error e => .error e

/-- The mask of `prefixed_avx2_t` for the block at `h_ptr`: the four compared
loads `h0 .. h3` at `h_ptr .. h_ptr + 3`, or-ed into `h_any`, and
`_mm256_movemask_epi8(h_any)`. -/
def prefixed_avx2_mask (mem : memory_t) (n_prefix256 : m256i_t) (h_ptr : Nat) : run_t Nat :=
  match load_cmpeq mem n_prefix256 h_ptr, load_cmpeq mem n_prefix256 ((h_ptr + 1) % size_mod),
      load_cmpeq mem n_prefix256 ((h_ptr + 2) % size_mod),
      load_cmpeq mem n_prefix256 ((h_ptr + 3) % size_mod) with
  | .ok h0, .ok h1, .ok h2, .ok h3 =>
    .ok (_mm256_movemask_epi8 (_mm256_or_si256 (_mm256_or_si256 h0 h1) (_mm256_or_si256 h2 h3)))
  | _, _, _, _ => .error .fault

/-- The condition `if (mask)` of `prefixed_avx2_t` for the block at `h_ptr`. -/
def prefixed_avx2_any (mem : memory_t) (n_prefix256 : m256i_t) (h_ptr : Nat) : run_t Bool :=
  match prefixed_avx2_mask mem n_prefix256 h_ptr with
  | .ok mask => .ok (decide (mask ≠ 0))
  | .error e => .error e

/-- The method `prefixed_avx2_t::next_offset`. -/
def prefixed_avx2_t.next_offset (mem : memory_t) (haystack needle : span_t) : run_t Nat :=
  if needle.len < 5 then naive_t.next_offset mem haystack needle
  else
    match load32 mem needle.data with
    | .ok n_prefix32 =>
      block_finish mem haystack needle
        (block_loop mem haystack needle (h_end_of haystack needle) 32
          (prefixed_avx2_any mem (_mm256_set1_epi32 n_prefix32)) size_mod haystack.data)
    | .error e => .error e

/-- The expression `_mm256_movemask_epi8(_mm256_cmpeq_epi32(_mm256_loadu_si256(p), n_prefix))`
of `speculative_avx2_t`. -/
def load_cmpeq_mask (mem : memory_t) (n_prefix256 : m256i_t) (p : Nat) : run_t Nat :=
  match _mm256_loadu_si256 mem p with
  | .ok v => .ok (_mm256_movemask_epi8 (_mm256_cmpeq_epi32 v n_prefix256))
  | .error e => .error e

/-- The condition `if (masks0 | masks1 | masks2 | masks3)` of
`speculative_avx2_t` for the block at `h_ptr`. -/
def speculative_avx2_any (mem : memory_t) (n_prefix256 : m256i_t) (h_ptr : Nat) : run_t Bool :=
  match load_cmpeq_mask mem n_prefix256 h_ptr,
      load_cmpeq_mask mem n_prefix256 ((h_ptr + 1) % size_mod),
      load_cmpeq_mask mem n_prefix256 ((h_ptr + 2) % size_mod),
      load_cmpeq_mask mem n_prefix256 ((h_ptr + 3) % size_mod) with
  | .ok masks0, .ok masks1, .ok masks2, .ok masks3 =>
    .ok (decide ((masks0 ||| masks1 ||| masks2 ||| masks3) ≠ 0))
  | _, _, _, _ => .error .fault

/-- The method `speculative_avx2_t::next_offset`. -/
def speculative_avx2_t.next_offset (mem : memory_t) (haystack needle : span_t) : run_t Nat :=
  if needle.len < 5 then naive_t.next_offset mem haystack needle
  else
    match load32 mem needle.data with
    | .ok n_prefix32 =>
      block_finish mem haystack needle
        (block_loop mem haystack needle (h_end_of haystack needle) 32
          (speculative_avx2_any mem (_mm256_set1_epi32 n_prefix32)) size_mod haystack.data)
    | .error e => .error e

/-- The condition `if (mask03 | mask47)` of `hybrid_avx2_t` for the block at
`h_ptr`: `mask03` is computed from the loads at `h_ptr .. h_ptr + 3`, `mask47`
from the loads at `h_ptr + 32 .. h_ptr + 35`. -/
def hybrid_avx2_any (mem : memory_t) (n_prefix256 : m256i_t) (h_ptr : Nat) : run_t Bool :=
  match prefixed_avx2_mask mem n_prefix256 h_ptr,
      prefixed_avx2_mask mem n_prefix256 ((h_ptr + 32) % size_mod) with
  | .ok mask03, .ok mask47 => .ok (decide ((mask03 ||| mask47) ≠ 0))
  | _, _ => .error .fault

/-- The method `hybrid_avx2_t::next_offset`. -/
def hybrid_avx2_t.next_offset (mem : memory_t) (haystack needle : span_t) : run_t Nat :=
  if needle.len < 5 then naive_t.next_offset mem haystack needle
  else
    match load32 mem needle.data with
    | .ok n_prefix32 =>
      block_finish mem haystack needle
        (block_loop mem haystack needle (h_end_of haystack needle) 64
          (hybrid_avx2_any mem (_mm256_set1_epi32 n_prefix32)) size_mod haystack.data)
    | .error e => .error e

/-- A span is valid in a memory when it lies in the lower half of the address
space and each of its bytes is readable. -/
structure span_t.valid (mem : memory_t) (s : span_t) : Prop where
  fits : s.data + s.len ≤ 2 ^ 63
  readable : ∀ i, i < s.len → mem (s.data + i) ≠ none

/-- The needle occurs in the haystack at offset `off`: it fits there and each
of its bytes equals the byte of the haystack at the same place. -/
def occurs (mem : memory_t) (haystack needle : span_t) (off : Nat) : Prop :=
  off + needle.len ≤ haystack.len ∧
    ∀ j, j < needle.len → mem (haystack.data + off + j) = mem (needle.data + j)

instance (mem : memory_t) (haystack needle : span_t) (off : Nat) :
    Decidable (occurs mem haystack needle off) := by
  unfold occurs; infer_instance

/-- The search `std::basic_string_view::find(n_stl)` as the C++ standard
defines it: the lowest position at which the needle fits and each of its
characters equals the character of the haystack, `none` (for `npos`) when
there is no such position. -/
def find_from (mem : memory_t) (haystack needle : span_t) : Nat → Nat → Option Nat
  | 0, _ => none
  | k + 1, pos =>
    if occurs mem haystack needle pos then some pos
    else find_from mem haystack needle k (pos + 1)

/-- The call `h_stl.find(n_stl)`: the search starts at position 0 and no
position after `haystack.len` has room for a needle. -/
def basic_string_view_find (mem : memory_t) (haystack needle : span_t) : Option Nat :=
  find_from mem haystack needle (haystack.len + 1) 0

/-- The value `r` is the answer of a first-occurrence search: the least offset
at which the needle occurs, or `not_found_k` when it occurs nowhere. -/
def is_first_occurrence (mem : memory_t) (haystack needle : span_t) (r : Nat) : Prop :=
  (occurs mem haystack needle r ∧ ∀ o, o < r → ¬ occurs mem haystack needle o) ∨
    (r = not_found_k ∧ ∀ o, ¬ occurs mem haystack needle o)

/-- The method `stl_t::next_offset`: `off == str_view_t::npos ? not_found_k : off`. -/
def stl_t.next_offset (mem : memory_t) (haystack needle : span_t) : Nat :=
  match basic_string_view_find mem haystack needle with
  | some off => off
  | none => not_found_k

/-- An engine: the method `next_offset` of one of the structs above. -/
abbrev engine_t : Type := memory_t → span_t → span_t → run_t Nat

/-- The loop of `find_all`:
`for (; (last_match = engine.next_offset(haystack.after_n(next_offset), needle)) != not_found_k;
count_matches++, next_offset = last_match + 1) callback(last_match);`.
The list `calls` holds the arguments of the calls of `callback` so far, in
their order. -/
def find_all_loop (engine : engine_t) (mem : memory_t) (haystack needle : span_t) :
    Nat → Nat → Nat → List Nat → List Nat × run_t Nat
  | 0, _, _, calls => (calls, .error .fuel)
  | fuel + 1, next_offset, count_matches, calls =>
    match engine mem (haystack.after_n next_offset) needle with
    | .ok last_match =>
      if last_match ≠ not_found_k then
        find_all_loop engine mem haystack needle fuel ((last_match + 1) % size_mod)
          ((count_matches + 1) % size_mod) (calls ++ [last_match])
      else (calls, .ok count_matches)
    | .error e => (calls, .error e)

/-- The function `find_all`, run for at most `fuel` evaluations of the loop
condition: the arguments of the calls of `callback`, and the returned count
(or the reason why there is none). -/
def find_all (engine : engine_t) (mem : memory_t) (haystack needle : span_t) (fuel : Nat) :
    List Nat × run_t Nat :=
  find_all_loop engine mem haystack needle fuel 0 0 []

/-- The four haystack bytes at offset `o` equal the needle's first four bytes. -/
def prefix_at (mem : memory_t) (h n : span_t) (o : Nat) : Prop :=
  ∀ j, j < 4 → mem (h.data + o + j) = mem (n.data + j)

/-- The property a block condition needs: on each full block it has a value,
and the value is `false` only when the needle occurs at none of the block's
start offsets. -/
def filter_complete (mem : memory_t) (h n : span_t) (width : Nat)
    (any_match : Nat → run_t Bool) : Prop :=
  ∀ base, base + width ≤ h.len - n.len →
    ∃ b, any_match (h.data + base) = .ok b ∧
      (b = false → ∀ i, i < width → ¬ occurs mem h n (base + i))

/-- Lane `l` of a register. -/
def lane (v : m256i_t) (l : Nat) : Nat := v.getD l 0

/-- A memory that holds the bytes `bs` from address `base` on and nothing else. -/
def mem_of (base : Nat) (bs : List Nat) : memory_t := fun a =>
  if base ≤ a ∧ a < base + bs.length then some (Fin.ofNat (bs.getD (a - base) 0)) else none

/-- Example memory: the haystack `"aaaa"` at address 4096 and the needle `"aa"`
at address 4100. -/
def mem_aaaa : memory_t := mem_of 4096 [97, 97, 97, 97, 97, 97]

/-- Example memory: the haystack `"xabxab"` at address 4096 and the needle
`"ab"` at address 4102. -/
def mem_xabxab : memory_t := mem_of 4096 [120, 97, 98, 120, 97, 98, 97, 98]

/-- Example memory: the haystack `"abab"` at address 4096 and the needle `"ab"`
at address 4100. -/
def mem_abab : memory_t := mem_of 4096 [97, 98, 97, 98, 97, 98]

/-- Example memory: the needle `"abcde"` at address 4096 and no other readable
address. -/
def mem_abcde : memory_t := mem_of 4096 [97, 98, 99, 100, 101]

/-- Example memory: at address 4096 a haystack of 86 bytes, `"abcdef"` at its
offsets 30 and 80 between bytes `'x'`, with `"abcdXX"` at offset 10, and the
needle `"abcdef"` at address 4182. -/
def mem_blocks : memory_t :=
  mem_of 4096 (List.replicate 10 120 ++ [97, 98, 99, 100, 88, 88] ++ List.replicate 14 120 ++
    [97, 98, 99, 100, 101, 102] ++ List.replicate 44 120 ++ [97, 98, 99, 100, 101, 102] ++
    [97, 98, 99, 100, 101, 102])

/-- The haystack of `mem_blocks`. -/
def haystack_blocks : span_t := { data := 4096, len := 86 }

/-- The needle of `mem_blocks`. -/
def needle_blocks : span_t := { data := 4182, len := 6 }

/-- Example memory: at address 4096 a haystack of 36 bytes, 31 bytes `'x'`
followed by `"abcde"`, and the needle `"abcde"` at address 4132. -/
def mem_tail36 : memory_t :=
  mem_of 4096 (List.replicate 31 120 ++ [97, 98, 99, 100, 101] ++ [97, 98, 99, 100, 101])

/-- The values `vs` are the results of successive searches of `find_all`, the
first on `haystack.after_n(next_offset)`, each later one on
`haystack.after_n(last_match + 1)` for the result `last_match` before it, and
none of them is `not_found_k`. -/
def search_chain (engine : engine_t) (mem : memory_t) (haystack needle : span_t) :
    Nat → List Nat → Prop
  | _, [] => True
  | next_offset, v :: vs =>
    engine mem (haystack.after_n next_offset) needle = .ok v ∧ v ≠ not_found_k ∧
      search_chain engine mem haystack needle ((v + 1) % size_mod) vs

/-- The memory `mem` with every address outside the span `s` made unreadable. -/
def only_on (mem : memory_t) (s : span_t) : memory_t := fun a =>
  if s.data ≤ a ∧ a < s.data + s.len then mem a else none

/-- The loop of `are_equal` with the reads of `*a` and of `*b` routed to two
memories: `*a` is read in `amem`, `*b` in `bmem`. -/
def are_equal_loop_split (amem bmem : memory_t) (a_end : Nat) : Nat → Nat → Nat → run_t Bool
  | 0, _, _ => .error .fuel
  | fuel + 1, a, b =>
    if a ≠ a_end then
      match load8 amem a, load8 bmem b with
      | .ok x, .ok y =>
        if x = y then
          are_equal_loop_split amem bmem a_end fuel ((a + 1) % size_mod) ((b + 1) % size_mod)
        else .ok (decide (a_end = a))
      | _, _ => .error .fault
    else .ok (decide (a_end = a))

/-- The function `are_equal` with `a` read in `amem` and `b` read in `bmem`. -/
def are_equal_split (amem bmem : memory_t) (a b len : Nat) : run_t Bool :=
  are_equal_loop_split amem bmem ((a + len) % size_mod) size_mod a b

/-- The loop of `naive_t::next_offset` with the reads through pointers into
the haystack routed to `hmem` and those through pointers into the needle to
`nmem`. -/
def naive_loop_split (hmem nmem : memory_t) (haystack needle : span_t) : Nat → Nat → run_t Nat
  | 0, _ => .error .fuel
  | fuel + 1, off =>
    if off ≤ (haystack.len + size_mod - needle.len) % size_mod then
      match are_equal_split hmem nmem ((haystack.data + off) % size_mod) needle.data
          needle.len with
      | .ok true => .ok off
      | .ok false => naive_loop_split hmem nmem haystack needle fuel ((off + 1) % size_mod)
      | .error e => .error e
    else .ok not_found_k

/-- The method `naive_t::next_offset` with haystack reads in `hmem` and needle
reads in `nmem`. -/
def naive_t.next_offset_split (hmem nmem : memory_t) (haystack needle : span_t) : run_t Nat :=
  if haystack.len < needle.len then .ok not_found_k
  else naive_loop_split hmem nmem haystack needle size_mod 0

/-- The loop of `prefixed_t::next_offset` with haystack reads (`*h_ptr` as a
32-bit integer, and the first argument of `are_equal`) in `hmem` and needle
reads in `nmem`. -/
def prefixed_loop_split (hmem nmem : memory_t) (haystack needle : span_t)
    (h_end n_prefix32 : Nat) : Nat → Nat → run_t Nat
  | 0, _ => .error .fuel
  | fuel + 1, h_ptr =>
    if h_ptr ≤ h_end then
      match load32 hmem h_ptr with
      | .ok w =>
        if n_prefix32 = w then
          match are_equal_split hmem nmem ((h_ptr + 4) % size_mod)
              ((needle.data + 4) % size_mod) ((needle.len + size_mod - 4) % size_mod) with
          | .ok true => .ok ((h_ptr + size_mod - haystack.data) % size_mod)
          | .ok false =>
            prefixed_loop_split hmem nmem haystack needle h_end n_prefix32 fuel
              ((h_ptr + 1) % size_mod)
          | .error e => .error e
        else
          prefixed_loop_split hmem nmem haystack needle h_end n_prefix32 fuel
            ((h_ptr + 1) % size_mod)
      | .error e => .error e
    else .ok not_found_k

/-- The method `prefixed_t::next_offset` with haystack reads in `hmem` and
needle reads (among them the read of the needle's first four bytes) in
`nmem`. -/
def prefixed_t.next_offset_split (hmem nmem : memory_t) (haystack needle : span_t) :
    run_t Nat :=
  if needle.len < 5 then naive_t.next_offset_split hmem nmem haystack needle
  else
    match load32 nmem needle.data with
    | .ok n_prefix32 =>
      prefixed_loop_split hmem nmem haystack needle (h_end_of haystack needle) n_prefix32
        size_mod haystack.data
    | .error e => .error e

/-- The scan of one block with haystack reads in `hmem` and needle reads in
`nmem`. -/
def block_scan_split (hmem nmem : memory_t) (haystack needle : span_t) (h_ptr width : Nat) :
    Nat → Nat → run_t (Option Nat)
  | 0, _ => .error .fuel
  | fuel + 1, i =>
    if i < width then
      match are_equal_split hmem nmem ((h_ptr + i) % size_mod) needle.data needle.len with
      | .ok true => .ok (some ((i + (h_ptr + size_mod - haystack.data) % size_mod) % size_mod))
      | .ok false => block_scan_split hmem nmem haystack needle h_ptr width fuel (i + 1)
      | .error e => .error e
    else .ok none

/-- The outer loop of a block engine with haystack reads in `hmem` and needle
reads in `nmem`; the block condition `any_match` reads the haystack only. -/
def block_loop_split (hmem nmem : memory_t) (haystack needle : span_t) (h_end width : Nat)
    (any_match : Nat → run_t Bool) : Nat → Nat → run_t block_exit_t
  | 0, _ => .error .fuel
  | fuel + 1, h_ptr =>
    if (h_ptr + width) % size_mod ≤ h_end then
      match any_match h_ptr with
      | .ok true =>
        match block_scan_split hmem nmem haystack needle h_ptr width (width + 1) 0 with
        | .ok (some r) => .ok (.found r)
        | .ok none =>
          block_loop_split hmem nmem haystack needle h_end width any_match fuel
            ((h_ptr + width) % size_mod)
        | .error e => .error e
      | .ok false =>
        block_loop_split hmem nmem haystack needle h_end width any_match fuel
          ((h_ptr + width) % size_mod)
      | .error e => .error e
    else .ok (.tail h_ptr)

/-- The end of a block engine with haystack reads in `hmem` and needle reads
in `nmem`. -/
def block_finish_split (hmem nmem : memory_t) (haystack needle : span_t) :
    run_t block_exit_t → run_t Nat
  | .ok (.found r) => .ok r
  | .ok (.tail h_ptr) =>
    match prefixed_t.next_offset_split hmem nmem
        (haystack.after_n ((h_ptr + size_mod - haystack.data) % size_mod)) needle with
    | .ok last_match =>
      if last_match ≠ not_found_k then
        .ok ((last_match + (h_ptr + size_mod - haystack.data) % size_mod) % size_mod)
      else .ok not_found_k
    | .error e => .error e
  | .error e => .error e

/-- The method `prefixed_autovec_t::next_offset` with haystack reads (the 32
loads of the counting loop, the scan, the tail) in `hmem` and needle reads in
`nmem`. -/
def prefixed_autovec_t.next_offset_split (hmem nmem : memory_t) (haystack needle : span_t) :
    run_t Nat :=
  if needle.len < 5 then naive_t.next_offset_split hmem nmem haystack needle
  else
    match load32 nmem needle.data with
    | .ok n_prefix32 =>
      block_finish_split hmem nmem haystack needle
        (block_loop_split hmem nmem haystack needle (h_end_of haystack needle) 32
          (autovec_any hmem n_prefix32) size_mod haystack.data)
    | .error e => .error e

/-- Example memory: at address 4096 a haystack of 70 bytes, 65 bytes `'x'`
followed by `"abcde"`, and the needle `"abcde"` at address 4166. -/
def mem_tail70 : memory_t :=
  mem_of 4096 (List.replicate 65 120 ++ [97, 98, 99, 100, 101] ++ [97, 98, 99, 100, 101])

/-- Example memory: 48 readable bytes from address 8 on: the 2-byte haystack
`"xy"` at address 8, directly behind it the 12-byte needle `"abcdefghijkl"`
at address 10, then 34 bytes `'z'`. -/
def mem_low : memory_t :=
  mem_of 8 ([120, 121] ++ [97, 98, 99, 100, 101, 102, 103, 104, 105, 106, 107, 108] ++
    List.replicate 34 122)

/-! ## The comparison `are_equal` and the engine `naive_t` -/

theorem mod_small {x : Nat} (h : x < 2 ^ 64) : x % size_mod = x := Nat.mod_eq_of_lt h

theorem load8_ok {mem : memory_t} {p : Nat} (h : mem p ≠ none) :
    ∃ v, mem p = some v ∧ load8 mem p = .ok v := by
  unfold load8
  cases hp : mem p with
  | none => exact absurd hp h
  | some v => exact ⟨v, rfl, rfl⟩

theorem are_equal_loop_spec (mem : memory_t) (k : Nat) :
    ∀ (fuel a b : Nat), k < fuel → a + k < 2 ^ 64 → b + k < 2 ^ 64 →
      (∀ j, j < k → mem (a + j) ≠ none) → (∀ j, j < k → mem (b + j) ≠ none) →
      ∃ r, are_equal_loop mem (a + k) fuel a b = .ok r ∧
        (r = true ↔ ∀ j, j < k → mem (a + j) = mem (b + j)) := by
  induction k with
  | zero =>
    intro fuel a b hf _ _ _ _
    obtain ⟨f, rfl⟩ : ∃ f, fuel = f + 1 := ⟨fuel - 1, by omega⟩
    refine ⟨true, ?_, by simp⟩
    simp [are_equal_loop]
  | succ k ih =>
    intro fuel a b hf ha hb hra hrb
    obtain ⟨f, rfl⟩ : ∃ f, fuel = f + 1 := ⟨fuel - 1, by omega⟩
    obtain ⟨x, hx, hlx⟩ := load8_ok (hra 0 (by omega))
    obtain ⟨y, hy, hly⟩ := load8_ok (hrb 0 (by omega))
    simp only [Nat.add_zero] at hx hy hlx hly
    have hne : a ≠ a + (k + 1) := by omega
    rw [are_equal_loop, if_pos hne, hlx, hly]
    simp only
    by_cases hxy : x = y
    · rw [if_pos hxy, mod_small (by omega : a + 1 < 2 ^ 64),
        mod_small (by omega : b + 1 < 2 ^ 64)]
      have hk : a + (k + 1) = (a + 1) + k := by omega
      rw [hk]
      obtain ⟨r, hr, hiff⟩ := ih f (a + 1) (b + 1) (by omega) (by omega) (by omega)
        (fun j hj => by have := hra (j + 1) (by omega); rwa [show a + 1 + j = a + (j + 1) by omega])
        (fun j hj => by have := hrb (j + 1) (by omega); rwa [show b + 1 + j = b + (j + 1) by omega])
      refine ⟨r, hr, hiff.trans ⟨fun h j hj => ?_, fun h j hj => ?_⟩⟩
      · cases j with
        | zero => simp [hx, hy, hxy]
        | succ j =>
          have := h j (by omega)
          rwa [show a + 1 + j = a + (j + 1) by omega, show b + 1 + j = b + (j + 1) by omega] at this
      · have := h (j + 1) (by omega)
        rwa [show a + (j + 1) = a + 1 + j by omega, show b + (j + 1) = b + 1 + j by omega] at this
    · rw [if_neg hxy]
      refine ⟨false, by simp, ?_⟩
      simp only [Bool.false_eq_true, false_iff, not_forall]
      refine ⟨0, by omega, ?_⟩
      simp [hx, hy, hxy]

theorem are_equal_spec (mem : memory_t) (a b len : Nat) (ha : a + len < 2 ^ 64)
    (hb : b + len < 2 ^ 64) (hra : ∀ j, j < len → mem (a + j) ≠ none)
    (hrb : ∀ j, j < len → mem (b + j) ≠ none) :
    ∃ r, are_equal mem a b len = .ok r ∧ (r = true ↔ ∀ j, j < len → mem (a + j) = mem (b + j)) := by
  unfold are_equal
  rw [mod_small ha]
  exact are_equal_loop_spec mem len size_mod a b (by show len < 2 ^ 64; omega) ha hb hra hrb

theorem sub_small {a b : Nat} (hb : b ≤ a) (ha : a < 2 ^ 64) :
    (a + size_mod - b) % size_mod = a - b := by
  have h : a + size_mod - b = (a - b) + size_mod := by omega
  rw [h, Nat.add_mod_right]
  exact mod_small (by omega)

theorem occurs_lt_not_found {mem : memory_t} {h n : span_t} (hv : h.valid mem) (hn : 0 < n.len)
    {o : Nat} (ho : occurs mem h n o) : o < not_found_k := by
  have h1 := ho.1
  have h2 := hv.fits
  unfold not_found_k
  omega

theorem is_first_occurrence_unique {mem : memory_t} {h n : span_t} {r1 r2 : Nat} (h1 : is_first_occurrence mem h n r1)
    (h2 : is_first_occurrence mem h n r2) : r1 = r2 := by
  rcases h1 with ⟨o1, m1⟩ | ⟨e1, a1⟩ <;> rcases h2 with ⟨o2, m2⟩ | ⟨e2, a2⟩
  · rcases Nat.lt_trichotomy r1 r2 with hlt | heq | hgt
    · exact absurd o1 (m2 r1 hlt)
    · exact heq
    · exact absurd o2 (m1 r2 hgt)
  · exact absurd o1 (a2 r1)
  · exact absurd o2 (a1 r2)
  · rw [e1, e2]

theorem naive_loop_spec {mem : memory_t} {h n : span_t} (hv : h.valid mem) (nv : n.valid mem)
    (hle : n.len ≤ h.len) :
    ∀ (d fuel off : Nat), off + d = h.len - n.len + 1 → d < fuel →
      (∀ o, o < off → ¬ occurs mem h n o) →
      ∃ r, naive_loop mem h n fuel off = .ok r ∧ is_first_occurrence mem h n r := by
  have hfit := hv.fits
  have nfit := nv.fits
  have hsub : (h.len + size_mod - n.len) % size_mod = h.len - n.len := sub_small hle (by omega)
  intro d
  induction d with
  | zero =>
    intro fuel off hoff hf hno
    obtain ⟨f, rfl⟩ : ∃ f, fuel = f + 1 := ⟨fuel - 1, by omega⟩
    rw [naive_loop, hsub, if_neg (by omega)]
    refine ⟨not_found_k, rfl, Or.inr ⟨rfl, fun o ho => ?_⟩⟩
    by_cases hlt : o < off
    · exact hno o hlt ho
    · have := ho.1
      omega
  | succ d ih =>
    intro fuel off hoff hf hno
    obtain ⟨f, rfl⟩ : ∃ f, fuel = f + 1 := ⟨fuel - 1, by omega⟩
    rw [naive_loop, hsub, if_pos (by omega), mod_small (by omega : h.data + off < 2 ^ 64)]
    obtain ⟨r, hr, hiff⟩ := are_equal_spec mem (h.data + off) n.data n.len (by omega) (by omega)
      (fun j hj => by rw [Nat.add_assoc]; exact hv.readable (off + j) (by omega))
      (fun j hj => nv.readable j hj)
    rw [hr]
    cases r with
    | true =>
      refine ⟨off, rfl, Or.inl ⟨⟨by omega, hiff.1 rfl⟩, hno⟩⟩
    | false =>
      simp only
      rw [mod_small (by omega : off + 1 < 2 ^ 64)]
      refine ih f (off + 1) (by omega) (by omega) (fun o ho hocc => ?_)
      by_cases hlt : o < off
      · exact hno o hlt hocc
      · have : o = off := by omega
        subst this
        have := hiff.2 hocc.2
        simp at this

theorem naive_spec {mem : memory_t} {h n : span_t} (hv : h.valid mem) (nv : n.valid mem)
    (hn : 0 < n.len) :
    ∃ r, naive_t.next_offset mem h n = .ok r ∧ is_first_occurrence mem h n r := by
  unfold naive_t.next_offset
  by_cases hlt : h.len < n.len
  · rw [if_pos hlt]
    refine ⟨not_found_k, rfl, Or.inr ⟨rfl, fun o ho => ?_⟩⟩
    have := ho.1
    omega
  · rw [if_neg hlt]
    have hfit := hv.fits
    exact naive_loop_spec hv nv (by omega) (h.len - n.len + 1) size_mod 0 (by omega)
      (by show h.len - n.len + 1 < 2 ^ 64; omega) (fun o ho => by omega)

theorem find_from_spec {mem : memory_t} {h n : span_t} (hn : 0 < n.len) :
    ∀ (k pos : Nat), pos + k = h.len + 1 → (∀ o, o < pos → ¬ occurs mem h n o) →
      is_first_occurrence mem h n
        (match find_from mem h n k pos with
          | some off => off
          | none => not_found_k) := by
  intro k
  induction k with
  | zero =>
    intro pos hpos hno
    simp only [find_from]
    refine Or.inr ⟨rfl, fun o ho => ?_⟩
    by_cases hlt : o < pos
    · exact hno o hlt ho
    · have := ho.1
      omega
  | succ k ih =>
    intro pos hpos hno
    rw [find_from]
    by_cases hocc : occurs mem h n pos
    · rw [if_pos hocc]
      exact Or.inl ⟨hocc, hno⟩
    · rw [if_neg hocc]
      refine ih (pos + 1) (by omega) (fun o ho => ?_)
      by_cases hlt : o < pos
      · exact hno o hlt
      · have : o = pos := by omega
        subst this
        exact hocc

theorem stl_spec {mem : memory_t} {h n : span_t} (hn : 0 < n.len) :
    is_first_occurrence mem h n (stl_t.next_offset mem h n) := by
  unfold stl_t.next_offset basic_string_view_find
  exact find_from_spec hn (h.len + 1) 0 (by omega) (fun o ho => by omega)

/-- C1: for a valid haystack and a valid non-empty needle `naive_t::next_offset`
returns a value `r`; if `r` is not `not_found_k` then the needle occurs at
offset `r` (it fits there and each byte matches) and at no offset below `r`;
`r` is `not_found_k` exactly when the needle occurs at no offset; and `r` is
the value of the reference search `stl_t::next_offset`. -/
theorem naive_returns_first_occurrence (mem : memory_t) (haystack needle : span_t)
    (hv : haystack.valid mem) (nv : needle.valid mem) (hn : 0 < needle.len) :
    ∃ r, naive_t.next_offset mem haystack needle = .ok r ∧
      (r ≠ not_found_k →
        (r + needle.len ≤ haystack.len ∧
          ∀ j, j < needle.len → mem (haystack.data + r + j) = mem (needle.data + j)) ∧
        ∀ o, o < r → ¬ occurs mem haystack needle o) ∧
      (r = not_found_k ↔ ∀ o, ¬ occurs mem haystack needle o) ∧
      r = stl_t.next_offset mem haystack needle := by
  obtain ⟨r, hr, hfirst⟩ := naive_spec hv nv hn
  refine ⟨r, hr, ?_, ?_, is_first_occurrence_unique hfirst (stl_spec hn)⟩
  · intro hne
    rcases hfirst with ⟨ho, hmin⟩ | ⟨he, _⟩
    · exact ⟨ho, hmin⟩
    · exact absurd he hne
  · constructor
    · intro he
      rcases hfirst with ⟨ho, _⟩ | ⟨_, hall⟩
      · have := occurs_lt_not_found hv hn ho
        omega
      · exact hall
    · intro hall
      rcases hfirst with ⟨ho, _⟩ | ⟨he, _⟩
      · exact absurd ho (hall r)
      · exact he

/-! ## The engine `prefixed_t` -/

theorem load32_eq_iff (mem : memory_t) (p q : Nat) (hp : p + 3 < 2 ^ 64) (hq : q + 3 < 2 ^ 64)
    (hrp : ∀ j, j < 4 → mem (p + j) ≠ none) (hrq : ∀ j, j < 4 → mem (q + j) ≠ none) :
    ∃ w w', load32 mem p = .ok w ∧ load32 mem q = .ok w' ∧
      (w = w' ↔ ∀ j, j < 4 → mem (p + j) = mem (q + j)) := by
  obtain ⟨a0, ha0, la0⟩ := load8_ok (hrp 0 (by omega))
  obtain ⟨a1, ha1, la1⟩ := load8_ok (hrp 1 (by omega))
  obtain ⟨a2, ha2, la2⟩ := load8_ok (hrp 2 (by omega))
  obtain ⟨a3, ha3, la3⟩ := load8_ok (hrp 3 (by omega))
  obtain ⟨b0, hb0, lb0⟩ := load8_ok (hrq 0 (by omega))
  obtain ⟨b1, hb1, lb1⟩ := load8_ok (hrq 1 (by omega))
  obtain ⟨b2, hb2, lb2⟩ := load8_ok (hrq 2 (by omega))
  obtain ⟨b3, hb3, lb3⟩ := load8_ok (hrq 3 (by omega))
  simp only [Nat.add_zero] at ha0 la0 hb0 lb0
  refine ⟨a0.val + 256 * a1.val + 65536 * a2.val + 16777216 * a3.val,
    b0.val + 256 * b1.val + 65536 * b2.val + 16777216 * b3.val, ?_, ?_, ?_⟩
  · rw [load32, mod_small (by omega : p + 1 < 2 ^ 64), mod_small (by omega : p + 2 < 2 ^ 64),
      mod_small (by omega : p + 3 < 2 ^ 64), la0, la1, la2, la3]
  · rw [load32, mod_small (by omega : q + 1 < 2 ^ 64), mod_small (by omega : q + 2 < 2 ^ 64),
      mod_small (by omega : q + 3 < 2 ^ 64), lb0, lb1, lb2, lb3]
  · have h0 := a0.isLt
    have h1 := a1.isLt
    have h2 := a2.isLt
    have h3 := a3.isLt
    have g0 := b0.isLt
    have g1 := b1.isLt
    have g2 := b2.isLt
    have g3 := b3.isLt
    constructor
    · intro hw j hj
      have e0 : a0 = b0 := Fin.ext (by omega)
      have e1 : a1 = b1 := Fin.ext (by omega)
      have e2 : a2 = b2 := Fin.ext (by omega)
      have e3 : a3 = b3 := Fin.ext (by omega)
      obtain rfl | rfl | rfl | rfl : j = 0 ∨ j = 1 ∨ j = 2 ∨ j = 3 := by omega
      · simp [ha0, hb0, e0]
      · simp [ha1, hb1, e1]
      · simp [ha2, hb2, e2]
      · simp [ha3, hb3, e3]
    · intro hall
      have e0 := hall 0 (by omega)
      have e1 := hall 1 (by omega)
      have e2 := hall 2 (by omega)
      have e3 := hall 3 (by omega)
      simp only [Nat.add_zero] at e0
      rw [ha0, hb0] at e0
      rw [ha1, hb1] at e1
      rw [ha2, hb2] at e2
      rw [ha3, hb3] at e3
      rw [Option.some.inj e0, Option.some.inj e1, Option.some.inj e2, Option.some.inj e3]

theorem prefixed_loop_spec {mem : memory_t} {h n : span_t} (hv : h.valid mem) (nv : n.valid mem)
    (h5 : 5 ≤ n.len) (hle : n.len ≤ h.len) {np : Nat} (hnp : load32 mem n.data = .ok np) :
    ∀ (d fuel off : Nat), off + d = h.len - n.len + 1 → d < fuel →
      (∀ o, o < off → ¬ occurs mem h n o) →
      ∃ r, prefixed_loop mem h n (h.data + h.len - n.len) np fuel (h.data + off) = .ok r ∧
        is_first_occurrence mem h n r := by
  have hfit := hv.fits
  have nfit := nv.fits
  intro d
  induction d with
  | zero =>
    intro fuel off hoff hf hno
    obtain ⟨f, rfl⟩ : ∃ f, fuel = f + 1 := ⟨fuel - 1, by omega⟩
    rw [prefixed_loop, if_neg (by omega)]
    refine ⟨not_found_k, rfl, Or.inr ⟨rfl, fun o ho => ?_⟩⟩
    by_cases hlt : o < off
    · exact hno o hlt ho
    · have := ho.1
      omega
  | succ d ih =>
    intro fuel off hoff hf hno
    obtain ⟨f, rfl⟩ : ∃ f, fuel = f + 1 := ⟨fuel - 1, by omega⟩
    have hnext : ¬ occurs mem h n off →
        ∃ r, prefixed_loop mem h n (h.data + h.len - n.len) np f (h.data + (off + 1)) = .ok r ∧
          is_first_occurrence mem h n r := by
      intro hnocc
      refine ih f (off + 1) (by omega) (by omega) (fun o ho hocc => ?_)
      by_cases hlt : o < off
      · exact hno o hlt hocc
      · have : o = off := by omega
        subst this
        exact hnocc hocc
    obtain ⟨w, w', hw, hw', hiff⟩ := load32_eq_iff mem n.data (h.data + off)
      (by omega) (by omega) (fun j hj => nv.readable j (by omega))
      (fun j hj => by rw [Nat.add_assoc]; exact hv.readable (off + j) (by omega))
    have hwnp : w = np := by
      rw [hnp] at hw
      exact (run_t.ok.inj hw).symm
    subst hwnp
    rw [prefixed_loop, if_pos (by omega), hw']
    simp only
    rw [mod_small (by omega : h.data + off + 1 < 2 ^ 64)]
    by_cases hweq : w = w'
    · rw [if_pos hweq, mod_small (by omega : h.data + off + 4 < 2 ^ 64),
        mod_small (by omega : n.data + 4 < 2 ^ 64), sub_small (by omega) (by omega)]
      obtain ⟨r, hr, hriff⟩ := are_equal_spec mem (h.data + off + 4) (n.data + 4) (n.len - 4)
        (by omega) (by omega)
        (fun j hj => by
          rw [show h.data + off + 4 + j = h.data + (off + 4 + j) by omega]
          exact hv.readable _ (by omega))
        (fun j hj => by
          rw [Nat.add_assoc]
          exact nv.readable _ (by omega))
      rw [hr]
      cases r with
      | true =>
        simp only
        have hret : (h.data + off + size_mod - h.data) % size_mod = off := by
          rw [sub_small (by omega) (by omega)]
          omega
        rw [hret]
        refine ⟨off, rfl, Or.inl ⟨⟨by omega, fun j hj => ?_⟩, hno⟩⟩
        by_cases hj4 : j < 4
        · exact ((hiff.1 hweq) j hj4).symm
        · have := (hriff.1 rfl) (j - 4) (by omega)
          rwa [show h.data + off + 4 + (j - 4) = h.data + off + j by omega,
            show n.data + 4 + (j - 4) = n.data + j by omega] at this
      | false =>
        simp only
        refine hnext (fun hocc => ?_)
        have : false = true := hriff.2 (fun j hj => by
          have := hocc.2 (4 + j) (by omega)
          rwa [show h.data + off + (4 + j) = h.data + off + 4 + j by omega,
            show n.data + (4 + j) = n.data + 4 + j by omega] at this)
        simp at this
    · rw [if_neg hweq]
      refine hnext (fun hocc => hweq (hiff.2 (fun j hj => ?_)))
      exact (hocc.2 j (by omega)).symm

theorem h_end_of_eq {h n : span_t} (hfit : h.data + h.len ≤ 2 ^ 63) (hle : n.len ≤ h.data + h.len) :
    h_end_of h n = h.data + h.len - n.len := by
  unfold h_end_of
  rw [mod_small (by omega : h.data + h.len < 2 ^ 64)]
  exact sub_small hle (by omega)

theorem needle_load32 {mem : memory_t} {n : span_t} (nv : n.valid mem) (h5 : 5 ≤ n.len) :
    ∃ np, load32 mem n.data = .ok np := by
  have nfit := nv.fits
  obtain ⟨w, _, hw, _, _⟩ := load32_eq_iff mem n.data n.data
    (by omega) (by omega) (fun j hj => nv.readable j (by omega))
    (fun j hj => nv.readable j (by omega))
  exact ⟨w, hw⟩

theorem prefixed_spec {mem : memory_t} {h n : span_t} (hv : h.valid mem) (nv : n.valid mem)
    (h5 : 5 ≤ n.len) (hle : n.len ≤ h.len) :
    ∃ r, prefixed_t.next_offset mem h n = .ok r ∧ is_first_occurrence mem h n r := by
  have hfit := hv.fits
  obtain ⟨np, hnp⟩ := needle_load32 nv h5
  unfold prefixed_t.next_offset
  rw [if_neg (by omega), hnp]
  simp only
  rw [h_end_of_eq hfit (by omega)]
  exact prefixed_loop_spec hv nv h5 hle hnp (h.len - n.len + 1) size_mod 0 (by omega)
    (by show h.len - n.len + 1 < 2 ^ 64; omega) (fun o ho => by omega)

/-- C2: for a valid haystack and a valid needle with
`5 <= needle.len <= haystack.len`, `prefixed_t::next_offset` and
`naive_t::next_offset` return the same value, and that value is the first
occurrence of the needle, or `not_found_k` when it occurs nowhere. -/
theorem prefixed_agrees_with_naive (mem : memory_t) (haystack needle : span_t)
    (hv : haystack.valid mem) (nv : needle.valid mem) (h5 : 5 ≤ needle.len)
    (hle : needle.len ≤ haystack.len) :
    ∃ r, prefixed_t.next_offset mem haystack needle = .ok r ∧
      naive_t.next_offset mem haystack needle = .ok r ∧
      is_first_occurrence mem haystack needle r := by
  obtain ⟨r, hr, hfirst⟩ := prefixed_spec hv nv h5 hle
  obtain ⟨r', hr', hfirst'⟩ := naive_spec hv nv (by omega)
  have : r' = r := is_first_occurrence_unique hfirst' hfirst
  subst this
  exact ⟨r', hr, hr', hfirst⟩

/-! ## The block engines: scan, outer loop and tail -/

theorem block_scan_spec {mem : memory_t} {h n : span_t} (hv : h.valid mem) (nv : n.valid mem)
    (hle : n.len ≤ h.len) {base width : Nat} (hbase : base + width ≤ h.len - n.len)
    (hpos : 0 < width) :
    ∀ (d fuel i : Nat), i + d = width → d < fuel →
      (∀ o, o < base + i → ¬ occurs mem h n o) →
      ∃ res, block_scan mem h n (h.data + base) width fuel i = .ok res ∧
        ((∃ r, res = some r ∧ is_first_occurrence mem h n r) ∨
          (res = none ∧ ∀ o, o < base + width → ¬ occurs mem h n o)) := by
  have hfit := hv.fits
  have nfit := nv.fits
  intro d
  induction d with
  | zero =>
    intro fuel i hi hf hno
    obtain ⟨f, rfl⟩ : ∃ f, fuel = f + 1 := ⟨fuel - 1, by omega⟩
    rw [block_scan, if_neg (by omega)]
    refine ⟨none, rfl, Or.inr ⟨rfl, fun o ho => hno o (by omega)⟩⟩
  | succ d ih =>
    intro fuel i hi hf hno
    obtain ⟨f, rfl⟩ : ∃ f, fuel = f + 1 := ⟨fuel - 1, by omega⟩
    rw [block_scan, if_pos (by omega), mod_small (by omega : h.data + base + i < 2 ^ 64)]
    obtain ⟨r, hr, hiff⟩ := are_equal_spec mem (h.data + base + i) n.data n.len (by omega)
      (by omega)
      (fun j hj => by
        rw [show h.data + base + i + j = h.data + (base + i + j) by omega]
        exact hv.readable _ (by omega))
      (fun j hj => nv.readable j hj)
    rw [hr]
    cases r with
    | true =>
      simp only
      have hret : (i + (h.data + base + size_mod - h.data) % size_mod) % size_mod = base + i := by
        rw [sub_small (by omega) (by omega), mod_small (by omega)]
        omega
      rw [hret]
      refine ⟨some (base + i), rfl, Or.inl ⟨base + i, rfl, Or.inl ⟨⟨by omega, fun j hj => ?_⟩, hno⟩⟩⟩
      have := (hiff.1 rfl) j hj
      rwa [show h.data + base + i + j = h.data + (base + i) + j by omega] at this
    | false =>
      simp only
      refine ih f (i + 1) (by omega) (by omega) (fun o ho hocc => ?_)
      by_cases hlt : o < base + i
      · exact hno o hlt hocc
      · have : o = base + i := by omega
        subst this
        have : false = true := hiff.2 (fun j hj => by
          have := hocc.2 j hj
          rwa [show h.data + (base + i) + j = h.data + base + i + j by omega] at this)
        simp at this

theorem block_loop_spec {mem : memory_t} {h n : span_t} (hv : h.valid mem) (nv : n.valid mem)
    (hle : n.len ≤ h.len) {width : Nat} (hpos : 0 < width) (hw : width ≤ 64)
    {any_match : Nat → run_t Bool} (hfilter : filter_complete mem h n width any_match) :
    ∀ (d fuel base : Nat), base ≤ h.len - n.len → h.len - n.len - base < d * width + width →
      d < fuel → (∀ o, o < base → ¬ occurs mem h n o) →
      ∃ ex, block_loop mem h n (h.data + h.len - n.len) width any_match fuel (h.data + base)
          = .ok ex ∧
        ((∃ r, ex = .found r ∧ is_first_occurrence mem h n r) ∨
          (∃ b, ex = .tail (h.data + b) ∧ b ≤ h.len - n.len ∧ h.len - n.len < b + width ∧
            ∀ o, o < b → ¬ occurs mem h n o)) := by
  have hfit := hv.fits
  have nfit := nv.fits
  intro d
  induction d with
  | zero =>
    intro fuel base hb hrem hf hno
    obtain ⟨f, rfl⟩ : ∃ f, fuel = f + 1 := ⟨fuel - 1, by omega⟩
    rw [block_loop, mod_small (by omega : h.data + base + width < 2 ^ 64), if_neg (by omega)]
    exact ⟨_, rfl, Or.inr ⟨base, rfl, hb, by omega, hno⟩⟩
  | succ d ih =>
    intro fuel base hb hrem hf hno
    obtain ⟨f, rfl⟩ : ∃ f, fuel = f + 1 := ⟨fuel - 1, by omega⟩
    rw [block_loop, mod_small (by omega : h.data + base + width < 2 ^ 64)]
    by_cases hin : base + width ≤ h.len - n.len
    · rw [if_pos (by omega)]
      have hrem' : h.len - n.len - (base + width) < d * width + width := by
        have : (d + 1) * width = d * width + width := Nat.succ_mul d width
        omega
      have hnext : (∀ o, o < base + width → ¬ occurs mem h n o) →
          ∃ ex, block_loop mem h n (h.data + h.len - n.len) width any_match f
              (h.data + base + width) = .ok ex ∧
            ((∃ r, ex = .found r ∧ is_first_occurrence mem h n r) ∨
              (∃ b, ex = .tail (h.data + b) ∧ b ≤ h.len - n.len ∧ h.len - n.len < b + width ∧
                ∀ o, o < b → ¬ occurs mem h n o)) := by
        intro hno'
        have := ih f (base + width) hin hrem' (by omega) hno'
        rwa [show h.data + (base + width) = h.data + base + width by omega] at this
      obtain ⟨b, hb', hbfalse⟩ := hfilter base hin
      rw [hb']
      cases b with
      | true =>
        simp only
        obtain ⟨res, hres, hcase⟩ := block_scan_spec hv nv hle hin hpos width (width + 1) 0
          (by omega) (by omega) (fun o ho => hno o (by omega))
        rw [hres]
        rcases hcase with ⟨r, rfl, hfirst⟩ | ⟨rfl, hno'⟩
        · exact ⟨_, rfl, Or.inl ⟨r, rfl, hfirst⟩⟩
        · exact hnext hno'
      | false =>
        simp only
        refine hnext (fun o ho => ?_)
        by_cases hlt : o < base
        · exact hno o hlt
        · have := hbfalse rfl (o - base) (by omega)
          rwa [show base + (o - base) = o by omega] at this
    · rw [if_neg (by omega)]
      exact ⟨_, rfl, Or.inr ⟨base, rfl, hb, by omega, hno⟩⟩

theorem after_n_valid {mem : memory_t} {h : span_t} (hv : h.valid mem) {b : Nat} (hb : b < h.len) :
    h.after_n b = ⟨h.data + b, h.len - b⟩ ∧ (h.after_n b).valid mem := by
  have hfit := hv.fits
  have he : h.after_n b = ⟨h.data + b, h.len - b⟩ := by
    unfold span_t.after_n
    rw [if_pos hb, mod_small (by omega)]
  refine ⟨he, ?_⟩
  rw [he]
  refine ⟨by simp only; omega, fun i hi => ?_⟩
  simp only at hi ⊢
  rw [Nat.add_assoc]
  exact hv.readable _ (by omega)

theorem occurs_after_n {mem : memory_t} {h n : span_t} {b : Nat} (hb : b ≤ h.len) (o : Nat) :
    occurs mem ⟨h.data + b, h.len - b⟩ n o ↔ occurs mem h n (b + o) := by
  unfold occurs
  simp only
  constructor
  · rintro ⟨h1, h2⟩
    refine ⟨by omega, fun j hj => ?_⟩
    have := h2 j hj
    rwa [show h.data + b + o + j = h.data + (b + o) + j by omega] at this
  · rintro ⟨h1, h2⟩
    refine ⟨by omega, fun j hj => ?_⟩
    have := h2 j hj
    rwa [show h.data + (b + o) + j = h.data + b + o + j by omega] at this

theorem block_engine_spec {mem : memory_t} {h n : span_t} (hv : h.valid mem) (nv : n.valid mem)
    (h5 : 5 ≤ n.len) (hle : n.len ≤ h.len) {width : Nat} (hpos : 0 < width) (hw : width ≤ 64)
    {any_match : Nat → run_t Bool} (hfilter : filter_complete mem h n width any_match) :
    ∃ r, block_finish mem h n
        (block_loop mem h n (h_end_of h n) width any_match size_mod h.data) = .ok r ∧
      is_first_occurrence mem h n r := by
  have hfit := hv.fits
  have nfit := nv.fits
  rw [h_end_of_eq hfit (by omega)]
  have hd : h.len - n.len - 0 < (h.len - n.len) * width + width := by
    have := Nat.le_mul_of_pos_right (h.len - n.len) hpos
    omega
  obtain ⟨ex, hex, hcase⟩ := block_loop_spec hv nv hle hpos hw hfilter (h.len - n.len) size_mod 0
    (by omega) hd (by show h.len - n.len < 2 ^ 64; omega) (fun o ho => by omega)
  rw [Nat.add_zero] at hex
  rw [hex]
  rcases hcase with ⟨r, rfl, hfirst⟩ | ⟨b, rfl, hb, _, hno⟩
  · exact ⟨r, rfl, hfirst⟩
  · have hoff : (h.data + b + size_mod - h.data) % size_mod = b := by
      rw [sub_small (by omega) (by omega)]
      omega
    obtain ⟨he, hsv⟩ := after_n_valid hv (by omega : b < h.len)
    simp only [block_finish]
    rw [hoff, he]
    rw [he] at hsv
    obtain ⟨r', hr', hfirst'⟩ := prefixed_spec hsv nv h5 (by simp only; omega)
    rw [hr']
    simp only
    rcases hfirst' with ⟨hocc, hmin⟩ | ⟨rfl, hall⟩
    · have hlt := occurs_lt_not_found hsv (by omega : 0 < n.len) hocc
      have hocc' := (occurs_after_n (by omega : b ≤ h.len) r').1 hocc
      have hbound := hocc'.1
      rw [if_pos (by omega), mod_small (by omega)]
      refine ⟨r' + b, rfl, Or.inl ⟨by rwa [Nat.add_comm], fun o ho hoo => ?_⟩⟩
      by_cases hob : o < b
      · exact hno o hob hoo
      · refine hmin (o - b) (by omega) ((occurs_after_n (by omega : b ≤ h.len) (o - b)).2 ?_)
        rwa [show b + (o - b) = o by omega]
    · rw [if_neg (by simp)]
      refine ⟨not_found_k, rfl, Or.inr ⟨rfl, fun o hoo => ?_⟩⟩
      by_cases hob : o < b
      · exact hno o hob hoo
      · refine hall (o - b) ((occurs_after_n (by omega : b ≤ h.len) (o - b)).2 ?_)
        rwa [show b + (o - b) = o by omega]

theorem load32_haystack {mem : memory_t} {h n : span_t} (hv : h.valid mem) (nv : n.valid mem)
    (h5 : 5 ≤ n.len) {np : Nat} (hnp : load32 mem n.data = .ok np) {o : Nat}
    (ho : o + 4 ≤ h.len) :
    ∃ w, load32 mem (h.data + o) = .ok w ∧
      (np = w ↔ ∀ j, j < 4 → mem (h.data + o + j) = mem (n.data + j)) := by
  have hfit := hv.fits
  have nfit := nv.fits
  obtain ⟨w, w', hw, hw', hiff⟩ := load32_eq_iff mem n.data (h.data + o)
    (by omega) (by omega) (fun j hj => nv.readable j (by omega))
    (fun j hj => by rw [Nat.add_assoc]; exact hv.readable (o + j) (by omega))
  have hwnp : w = np := by
    rw [hnp] at hw
    exact (run_t.ok.inj hw).symm
  subst hwnp
  exact ⟨w', hw', hiff.trans ⟨fun hh j hj => (hh j hj).symm, fun hh j hj => (hh j hj).symm⟩⟩

theorem autovec_count_spec {mem : memory_t} {h n : span_t} (hv : h.valid mem) (nv : n.valid mem)
    (h5 : 5 ≤ n.len) (hle : n.len ≤ h.len) {np : Nat} (hnp : load32 mem n.data = .ok np)
    {base : Nat} (hbase : base + 32 ≤ h.len - n.len) :
    ∀ (d fuel i c : Nat), i + d = 32 → d < fuel →
      ∃ c', autovec_count mem np (h.data + base) fuel i c = .ok c' ∧ c ≤ c' ∧
        (c' = c → ∀ i', i ≤ i' → i' < 32 → ¬ occurs mem h n (base + i')) := by
  have hfit := hv.fits
  intro d
  induction d with
  | zero =>
    intro fuel i c hi hf
    obtain ⟨f, rfl⟩ : ∃ f, fuel = f + 1 := ⟨fuel - 1, by omega⟩
    rw [autovec_count, if_neg (by omega)]
    exact ⟨c, rfl, Nat.le_refl c, fun _ i' h1 h2 => by omega⟩
  | succ d ih =>
    intro fuel i c hi hf
    obtain ⟨f, rfl⟩ : ∃ f, fuel = f + 1 := ⟨fuel - 1, by omega⟩
    obtain ⟨w, hw, hiff⟩ := load32_haystack hv nv h5 hnp (by omega : base + i + 4 ≤ h.len)
    rw [autovec_count, if_pos (by omega), mod_small (by omega : h.data + base + i < 2 ^ 64),
      show h.data + base + i = h.data + (base + i) by omega, hw]
    simp only
    obtain ⟨c', hc', hle', hzero⟩ := ih f (i + 1) (c + if np = w then 1 else 0) (by omega)
      (by omega)
    refine ⟨c', hc', ?_, fun hcc i' h1 h2 hocc => ?_⟩
    · have : c ≤ c + if np = w then 1 else 0 := Nat.le_add_right _ _
      omega
    · by_cases hnw : np = w
      · rw [if_pos hnw] at hle'
        omega
      · rw [if_neg hnw] at hle' hzero
        by_cases hi' : i' = i
        · subst hi'
          exact hnw (hiff.2 (fun j hj => hocc.2 j (by omega)))
        · exact hzero (by omega) i' (by omega) h2 hocc

theorem autovec_filter_complete {mem : memory_t} {h n : span_t} (hv : h.valid mem)
    (nv : n.valid mem) (h5 : 5 ≤ n.len) (hle : n.len ≤ h.len) {np : Nat}
    (hnp : load32 mem n.data = .ok np) :
    filter_complete mem h n 32 (autovec_any mem np) := by
  intro base hbase
  obtain ⟨c, hc, _, hzero⟩ := autovec_count_spec hv nv h5 hle hnp hbase 32 33 0 0 (by omega)
    (by omega)
  unfold autovec_any
  rw [hc]
  refine ⟨_, rfl, fun hfalse i hi => ?_⟩
  have hc0 : c = 0 := by simpa using hfalse
  exact hzero hc0 i (by omega) hi

theorem autovec_spec {mem : memory_t} {h n : span_t} (hv : h.valid mem) (nv : n.valid mem)
    (h5 : 5 ≤ n.len) (hle : n.len ≤ h.len) :
    ∃ r, prefixed_autovec_t.next_offset mem h n = .ok r ∧ is_first_occurrence mem h n r := by
  obtain ⟨np, hnp⟩ := needle_load32 nv h5
  unfold prefixed_autovec_t.next_offset
  rw [if_neg (by omega), hnp]
  exact block_engine_spec hv nv h5 hle (by omega) (by omega)
    (autovec_filter_complete hv nv h5 hle hnp)

/-- C3: for a valid haystack and a valid needle with
`5 <= needle.len <= haystack.len`, `prefixed_autovec_t::next_offset` and
`naive_t::next_offset` return the same value, the first occurrence of the
needle as an offset from the start of the haystack, or `not_found_k`. -/
theorem autovec_agrees_with_naive (mem : memory_t) (haystack needle : span_t)
    (hv : haystack.valid mem) (nv : needle.valid mem) (h5 : 5 ≤ needle.len)
    (hle : needle.len ≤ haystack.len) :
    ∃ r, prefixed_autovec_t.next_offset mem haystack needle = .ok r ∧
      naive_t.next_offset mem haystack needle = .ok r ∧
      is_first_occurrence mem haystack needle r := by
  obtain ⟨r, hr, hfirst⟩ := autovec_spec hv nv h5 hle
  obtain ⟨r', hr', hfirst'⟩ := naive_spec hv nv (by omega)
  have : r' = r := is_first_occurrence_unique hfirst' hfirst
  subst this
  exact ⟨r', hr, hr', hfirst⟩

/-! ## The AVX2 masks -/

theorem lane_zipWith (f : Nat → Nat → Nat) :
    ∀ (a b : List Nat) (l : Nat), l < a.length → l < b.length →
      lane (List.zipWith f a b) l = f (lane a l) (lane b l) := by
  intro a
  induction a with
  | nil => intro b l hl _; simp at hl
  | cons x xs ih =>
    intro b l hla hlb
    cases b with
    | nil => simp at hlb
    | cons y ys =>
      cases l with
      | zero => rfl
      | succ l =>
        simp only [List.length_cons] at hla hlb
        exact ih ys l (by omega) (by omega)

theorem lane_replicate (k v l : Nat) (hl : l < k) : lane (List.replicate k v) l = v := by
  induction k generalizing l with
  | zero => omega
  | succ k ih =>
    cases l with
    | zero => rfl
    | succ l => exact ih l (by omega)

theorem lor_eq_zero {x y : Nat} : x ||| y = 0 ↔ x = 0 ∧ y = 0 := by
  constructor
  · intro hxy
    have ht : ∀ i, (x.testBit i || y.testBit i) = false := fun i => by
      rw [← Nat.testBit_or, hxy, Nat.zero_testBit]
    refine ⟨Nat.eq_of_testBit_eq (fun i => ?_), Nat.eq_of_testBit_eq (fun i => ?_)⟩
    · have := ht i
      rw [Bool.or_eq_false_iff] at this
      rw [this.1, Nat.zero_testBit]
    · have := ht i
      rw [Bool.or_eq_false_iff] at this
      rw [this.2, Nat.zero_testBit]
  · rintro ⟨rfl, rfl⟩
    rfl

theorem lane_msbs_eq_zero (v : Nat) :
    lane_msbs v = 0 ↔
      v.testBit 7 = false ∧ v.testBit 15 = false ∧ v.testBit 23 = false ∧ v.testBit 31 = false := by
  unfold lane_msbs
  cases v.testBit 7 <;> cases v.testBit 15 <;> cases v.testBit 23 <;> cases v.testBit 31 <;>
    simp

theorem lane_msbs_lor (x y : Nat) :
    lane_msbs (x ||| y) = 0 ↔ lane_msbs x = 0 ∧ lane_msbs y = 0 := by
  simp only [lane_msbs_eq_zero, Nat.testBit_or, Bool.or_eq_false_iff]
  tauto

theorem movemask_eq_zero :
    ∀ (vs : List Nat), _mm256_movemask_epi8 vs = 0 ↔ ∀ l, l < vs.length → lane_msbs (lane vs l) = 0 := by
  intro vs
  induction vs with
  | nil => simp [_mm256_movemask_epi8]
  | cons v vs ih =>
    rw [_mm256_movemask_epi8]
    constructor
    · intro hz l hl
      cases l with
      | zero =>
        show lane_msbs v = 0
        omega
      | succ l =>
        simp only [List.length_cons] at hl
        exact (ih.1 (by omega)) l (by omega)
    · intro hall
      have h0 : lane_msbs v = 0 := hall 0 (by simp)
      have h1 : _mm256_movemask_epi8 vs = 0 :=
        ih.2 (fun l hl => hall (l + 1) (by simp only [List.length_cons]; omega))
      omega

theorem movemask_or (a b : List Nat) (hab : a.length = b.length) :
    _mm256_movemask_epi8 (_mm256_or_si256 a b) = 0 ↔
      _mm256_movemask_epi8 a = 0 ∧ _mm256_movemask_epi8 b = 0 := by
  have hlen : (_mm256_or_si256 a b).length = a.length := by
    unfold _mm256_or_si256
    rw [List.length_zipWith, hab, Nat.min_self]
  simp only [movemask_eq_zero, hlen]
  constructor
  · intro hall
    refine ⟨fun l hl => ?_, fun l hl => ?_⟩
    · have := hall l hl
      unfold _mm256_or_si256 at this
      rw [lane_zipWith _ a b l hl (by omega), lane_msbs_lor] at this
      exact this.1
    · have := hall l (by omega)
      unfold _mm256_or_si256 at this
      rw [lane_zipWith _ a b l (by omega) hl, lane_msbs_lor] at this
      exact this.2
  · rintro ⟨ha, hb⟩ l hl
    unfold _mm256_or_si256
    rw [lane_zipWith _ a b l hl (by omega), lane_msbs_lor]
    exact ⟨ha l hl, hb l (by omega)⟩

theorem or_length (a b : List Nat) (hab : a.length = b.length) :
    (_mm256_or_si256 a b).length = a.length := by
  unfold _mm256_or_si256
  rw [List.length_zipWith, hab, Nat.min_self]

theorem cmpeq_length (v : List Nat) (np : Nat) (hv : v.length = 8) :
    (_mm256_cmpeq_epi32 v (_mm256_set1_epi32 np)).length = 8 := by
  unfold _mm256_cmpeq_epi32 _mm256_set1_epi32
  rw [List.length_zipWith, hv, List.length_replicate]
  rfl

theorem cmpeq_lane_msbs (v : List Nat) (np : Nat) (hv : v.length = 8) (l : Nat) (hl : l < 8) :
    lane_msbs (lane (_mm256_cmpeq_epi32 v (_mm256_set1_epi32 np)) l) = 0 ↔ lane v l ≠ np := by
  unfold _mm256_cmpeq_epi32 _mm256_set1_epi32
  rw [lane_zipWith _ v _ l (by omega) (by rw [List.length_replicate]; omega),
    lane_replicate 8 np l hl]
  by_cases he : lane v l = np
  · rw [if_pos he]
    simp only [he, ne_eq, not_true_eq_false, iff_false]
    decide
  · rw [if_neg he]
    simp only [ne_eq, he, not_false_eq_true, iff_true]
    decide

theorem load_lanes_length (mem : memory_t) :
    ∀ (k p : Nat) (ws : List Nat), load_lanes mem k p = .ok ws → ws.length = k := by
  intro k
  induction k with
  | zero =>
    intro p ws hws
    rw [load_lanes] at hws
    rw [← run_t.ok.inj hws]
    rfl
  | succ k ih =>
    intro p ws hws
    rw [load_lanes] at hws
    cases h1 : load32 mem p with
    | error e => rw [h1] at hws; simp at hws
    | ok w =>
      cases h2 : load_lanes mem k ((p + 4) % size_mod) with
      | error e => rw [h1, h2] at hws; simp at hws
      | ok ws' =>
        rw [h1, h2] at hws
        simp only at hws
        rw [← run_t.ok.inj hws, List.length_cons, ih _ _ h2]

theorem occurs_prefix_at {mem : memory_t} {h n : span_t} (h5 : 5 ≤ n.len) {o : Nat}
    (ho : occurs mem h n o) : prefix_at mem h n o :=
  fun j hj => ho.2 j (by omega)

theorem load_lanes_haystack {mem : memory_t} {h n : span_t} (hv : h.valid mem) (nv : n.valid mem)
    (h5 : 5 ≤ n.len) {np : Nat} (hnp : load32 mem n.data = .ok np) :
    ∀ (k o : Nat), o + 4 * k ≤ h.len →
      ∃ ws, load_lanes mem k (h.data + o) = .ok ws ∧ ws.length = k ∧
        ∀ l, l < k → (np = lane ws l ↔ prefix_at mem h n (o + 4 * l)) := by
  have hfit := hv.fits
  intro k
  induction k with
  | zero =>
    intro o _
    exact ⟨[], rfl, rfl, fun l hl => by omega⟩
  | succ k ih =>
    intro o ho
    obtain ⟨w, hw, hiff⟩ := load32_haystack hv nv h5 hnp (by omega : o + 4 ≤ h.len)
    obtain ⟨ws, hws, hlen, hlanes⟩ := ih (o + 4) (by omega)
    refine ⟨w :: ws, ?_, by rw [List.length_cons, hlen], fun l hl => ?_⟩
    · rw [load_lanes, hw, mod_small (by omega : h.data + o + 4 < 2 ^ 64),
        show h.data + o + 4 = h.data + (o + 4) by omega, hws]
    · cases l with
      | zero => exact hiff
      | succ l =>
        have := hlanes l (by omega)
        rwa [show o + 4 + 4 * l = o + 4 * (l + 1) by omega] at this

theorem load_cmpeq_haystack {mem : memory_t} {h n : span_t} (hv : h.valid mem) (nv : n.valid mem)
    (h5 : 5 ≤ n.len) {np : Nat} (hnp : load32 mem n.data = .ok np) {o : Nat}
    (ho : o + 32 ≤ h.len) :
    ∃ c, load_cmpeq mem (_mm256_set1_epi32 np) (h.data + o) = .ok c ∧ c.length = 8 ∧
      (_mm256_movemask_epi8 c = 0 ↔ ∀ l, l < 8 → ¬ prefix_at mem h n (o + 4 * l)) := by
  obtain ⟨ws, hws, hlen, hlanes⟩ := load_lanes_haystack hv nv h5 hnp 8 o (by omega)
  refine ⟨_mm256_cmpeq_epi32 ws (_mm256_set1_epi32 np), ?_, cmpeq_length ws np hlen, ?_⟩
  · unfold load_cmpeq _mm256_loadu_si256
    rw [hws]
  · rw [movemask_eq_zero, cmpeq_length ws np hlen]
    constructor
    · intro hall l hl hp
      exact ((cmpeq_lane_msbs ws np hlen l hl).1 (hall l hl)) ((hlanes l hl).2 hp).symm
    · intro hall l hl
      exact (cmpeq_lane_msbs ws np hlen l hl).2 (fun he => hall l hl ((hlanes l hl).1 he.symm))

theorem avx2_mask_spec {mem : memory_t} {h n : span_t} (hv : h.valid mem) (nv : n.valid mem)
    (h5 : 5 ≤ n.len) (hle : n.len ≤ h.len) {np : Nat} (hnp : load32 mem n.data = .ok np)
    {base : Nat} (hbase : base + 32 ≤ h.len - n.len) :
    ∃ mask, prefixed_avx2_mask mem (_mm256_set1_epi32 np) (h.data + base) = .ok mask ∧
      (mask = 0 ↔ ∀ i, i < 32 → ¬ prefix_at mem h n (base + i)) := by
  have hfit := hv.fits
  obtain ⟨c0, hc0, hl0, hz0⟩ := load_cmpeq_haystack hv nv h5 hnp (by omega : base + 32 ≤ h.len)
  obtain ⟨c1, hc1, hl1, hz1⟩ := load_cmpeq_haystack hv nv h5 hnp
    (by omega : base + 1 + 32 ≤ h.len)
  obtain ⟨c2, hc2, hl2, hz2⟩ := load_cmpeq_haystack hv nv h5 hnp
    (by omega : base + 2 + 32 ≤ h.len)
  obtain ⟨c3, hc3, hl3, hz3⟩ := load_cmpeq_haystack hv nv h5 hnp
    (by omega : base + 3 + 32 ≤ h.len)
  refine ⟨_mm256_movemask_epi8
    (_mm256_or_si256 (_mm256_or_si256 c0 c1) (_mm256_or_si256 c2 c3)), ?_, ?_⟩
  · rw [prefixed_avx2_mask, mod_small (by omega : h.data + base + 1 < 2 ^ 64),
      mod_small (by omega : h.data + base + 2 < 2 ^ 64),
      mod_small (by omega : h.data + base + 3 < 2 ^ 64),
      show h.data + base + 1 = h.data + (base + 1) by omega,
      show h.data + base + 2 = h.data + (base + 2) by omega,
      show h.data + base + 3 = h.data + (base + 3) by omega, hc0, hc1, hc2, hc3]
  · rw [movemask_or _ _ (by rw [or_length _ _ (by omega), or_length _ _ (by omega)]; omega),
      movemask_or _ _ (by omega), movemask_or _ _ (by omega), hz0, hz1, hz2, hz3]
    constructor
    · rintro ⟨⟨a0, a1⟩, a2, a3⟩ i hi
      obtain hk | hk | hk | hk : i % 4 = 0 ∨ i % 4 = 1 ∨ i % 4 = 2 ∨ i % 4 = 3 := by omega
      · have := a0 (i / 4) (by omega)
        rwa [show base + 4 * (i / 4) = base + i by omega] at this
      · have := a1 (i / 4) (by omega)
        rwa [show base + 1 + 4 * (i / 4) = base + i by omega] at this
      · have := a2 (i / 4) (by omega)
        rwa [show base + 2 + 4 * (i / 4) = base + i by omega] at this
      · have := a3 (i / 4) (by omega)
        rwa [show base + 3 + 4 * (i / 4) = base + i by omega] at this
    · intro hall
      refine ⟨⟨fun l hl => hall (4 * l) (by omega), fun l hl => ?_⟩, fun l hl => ?_,
        fun l hl => ?_⟩
      · have := hall (1 + 4 * l) (by omega)
        rwa [show base + (1 + 4 * l) = base + 1 + 4 * l by omega] at this
      · have := hall (2 + 4 * l) (by omega)
        rwa [show base + (2 + 4 * l) = base + 2 + 4 * l by omega] at this
      · have := hall (3 + 4 * l) (by omega)
        rwa [show base + (3 + 4 * l) = base + 3 + 4 * l by omega] at this

theorem avx2_filter_complete {mem : memory_t} {h n : span_t} (hv : h.valid mem)
    (nv : n.valid mem) (h5 : 5 ≤ n.len) (hle : n.len ≤ h.len) {np : Nat}
    (hnp : load32 mem n.data = .ok np) :
    filter_complete mem h n 32 (prefixed_avx2_any mem (_mm256_set1_epi32 np)) := by
  intro base hbase
  obtain ⟨mask, hmask, hz⟩ := avx2_mask_spec hv nv h5 hle hnp hbase
  unfold prefixed_avx2_any
  rw [hmask]
  refine ⟨_, rfl, fun hfalse i hi hocc => ?_⟩
  have hm0 : mask = 0 := by simpa using hfalse
  exact hz.1 hm0 i hi (occurs_prefix_at h5 hocc)

theorem hybrid_filter_complete {mem : memory_t} {h n : span_t} (hv : h.valid mem)
    (nv : n.valid mem) (h5 : 5 ≤ n.len) (hle : n.len ≤ h.len) {np : Nat}
    (hnp : load32 mem n.data = .ok np) :
    filter_complete mem h n 64 (hybrid_avx2_any mem (_mm256_set1_epi32 np)) := by
  have hfit := hv.fits
  intro base hbase
  obtain ⟨m03, hm03, hz03⟩ := avx2_mask_spec hv nv h5 hle hnp
    (by omega : base + 32 ≤ h.len - n.len)
  obtain ⟨m47, hm47, hz47⟩ := avx2_mask_spec hv nv h5 hle hnp
    (by omega : base + 32 + 32 ≤ h.len - n.len)
  unfold hybrid_avx2_any
  rw [hm03, mod_small (by omega : h.data + base + 32 < 2 ^ 64),
    show h.data + base + 32 = h.data + (base + 32) by omega, hm47]
  refine ⟨_, rfl, fun hfalse i hi hocc => ?_⟩
  have hm0 : m03 ||| m47 = 0 := by simpa using hfalse
  rw [lor_eq_zero] at hm0
  by_cases hi32 : i < 32
  · exact hz03.1 hm0.1 i hi32 (occurs_prefix_at h5 hocc)
  · refine hz47.1 hm0.2 (i - 32) (by omega) ?_
    rw [show base + 32 + (i - 32) = base + i by omega]
    exact occurs_prefix_at h5 hocc

theorem avx2_spec {mem : memory_t} {h n : span_t} (hv : h.valid mem) (nv : n.valid mem)
    (h5 : 5 ≤ n.len) (hle : n.len ≤ h.len) :
    ∃ r, prefixed_avx2_t.next_offset mem h n = .ok r ∧ is_first_occurrence mem h n r := by
  obtain ⟨np, hnp⟩ := needle_load32 nv h5
  unfold prefixed_avx2_t.next_offset
  rw [if_neg (by omega), hnp]
  exact block_engine_spec hv nv h5 hle (by omega) (by omega)
    (avx2_filter_complete hv nv h5 hle hnp)

theorem hybrid_spec {mem : memory_t} {h n : span_t} (hv : h.valid mem) (nv : n.valid mem)
    (h5 : 5 ≤ n.len) (hle : n.len ≤ h.len) :
    ∃ r, hybrid_avx2_t.next_offset mem h n = .ok r ∧ is_first_occurrence mem h n r := by
  obtain ⟨np, hnp⟩ := needle_load32 nv h5
  unfold hybrid_avx2_t.next_offset
  rw [if_neg (by omega), hnp]
  exact block_engine_spec hv nv h5 hle (by omega) (by omega)
    (hybrid_filter_complete hv nv h5 hle hnp)

/-- C9: for a valid haystack and a valid needle with
`5 <= needle.len <= haystack.len`, `prefixed_avx2_t::next_offset` (each
256-bit load and compare taken as eight 32-bit lane comparisons with the
broadcast first four bytes of the needle) and `naive_t::next_offset` return
the same value, the first occurrence of the needle or `not_found_k`. -/
theorem avx2_agrees_with_naive (mem : memory_t) (haystack needle : span_t)
    (hv : haystack.valid mem) (nv : needle.valid mem) (h5 : 5 ≤ needle.len)
    (hle : needle.len ≤ haystack.len) :
    ∃ r, prefixed_avx2_t.next_offset mem haystack needle = .ok r ∧
      naive_t.next_offset mem haystack needle = .ok r ∧
      is_first_occurrence mem haystack needle r := by
  obtain ⟨r, hr, hfirst⟩ := avx2_spec hv nv h5 hle
  obtain ⟨r', hr', hfirst'⟩ := naive_spec hv nv (by omega)
  have : r' = r := is_first_occurrence_unique hfirst' hfirst
  subst this
  exact ⟨r', hr, hr', hfirst⟩

/-! ## Haystacks shorter than the needle -/

theorem load32_fault {mem : memory_t} {p : Nat} (hp : mem p = none) :
    load32 mem p = .error .fault := by
  have h8 : load8 mem p = .error .fault := by
    unfold load8
    rw [hp]
  unfold load32
  rw [h8]

theorem load_cmpeq_fault {mem : memory_t} {p : Nat} (hp : mem p = none) (np256 : m256i_t) :
    load_cmpeq mem np256 p = .error .fault := by
  unfold load_cmpeq _mm256_loadu_si256
  rw [load_lanes, load32_fault hp]

theorem avx2_mask_fault {mem : memory_t} {p : Nat} (hp : mem p = none) (np256 : m256i_t) :
    prefixed_avx2_mask mem np256 p = .error .fault := by
  unfold prefixed_avx2_mask
  rw [load_cmpeq_fault hp]

theorem avx2_any_fault {mem : memory_t} {p : Nat} (hp : mem p = none) (np256 : m256i_t) :
    prefixed_avx2_any mem np256 p = .error .fault := by
  unfold prefixed_avx2_any
  rw [avx2_mask_fault hp]

theorem hybrid_any_fault {mem : memory_t} {p : Nat} (hp : mem p = none) (np256 : m256i_t) :
    hybrid_avx2_any mem np256 p = .error .fault := by
  unfold hybrid_avx2_any
  rw [avx2_mask_fault hp]

theorem autovec_any_fault {mem : memory_t} {p : Nat} (hp : mem p = none) (hlt : p < 2 ^ 64)
    (np : Nat) : autovec_any mem np p = .error .fault := by
  unfold autovec_any
  rw [autovec_count, if_pos (by omega), Nat.add_zero, mod_small hlt, load32_fault hp]

theorem h_end_of_wrap {h n : span_t} (hwrap : h.data + h.len < n.len) (nfit : n.len ≤ 2 ^ 63) :
    h_end_of h n = h.data + h.len + 2 ^ 64 - n.len := by
  unfold h_end_of
  rw [mod_small (by omega : h.data + h.len < 2 ^ 64)]
  show (h.data + h.len + 2 ^ 64 - n.len) % 2 ^ 64 = h.data + h.len + 2 ^ 64 - n.len
  exact Nat.mod_eq_of_lt (by omega)

theorem prefixed_short {mem : memory_t} {h n : span_t} (hv : h.valid mem) (nv : n.valid mem)
    (h5 : 5 ≤ n.len) (hlt : h.len < n.len) (hend : n.len ≤ h.data + h.len ∨ mem h.data = none) :
    prefixed_t.next_offset mem h n = .ok not_found_k ∨
      prefixed_t.next_offset mem h n = .error .fault := by
  have hfit := hv.fits
  have nfit := nv.fits
  obtain ⟨np, hnp⟩ := needle_load32 nv h5
  unfold prefixed_t.next_offset
  rw [if_neg (by omega), hnp]
  simp only
  have hfuel : size_mod = (2 ^ 64 - 1) + 1 := by decide
  rw [hfuel, prefixed_loop]
  by_cases hnw : n.len ≤ h.data + h.len
  · rw [h_end_of_eq hfit hnw, if_neg (by omega)]
    exact Or.inl rfl
  · have hnone : mem h.data = none := hend.resolve_left hnw
    rw [h_end_of_wrap (by omega) (by omega), if_pos (by omega), load32_fault hnone]
    exact Or.inr rfl

theorem block_loop_short {mem : memory_t} {h n : span_t} (hv : h.valid mem) (nv : n.valid mem)
    (hlt : h.len < n.len) {width : Nat} (hw : width ≤ 64) (any_match : Nat → run_t Bool) :
    (n.len ≤ h.data + h.len →
      block_loop mem h n (h_end_of h n) width any_match size_mod h.data = .ok (.tail h.data)) ∧
    (¬ n.len ≤ h.data + h.len → any_match h.data = .error .fault →
      block_loop mem h n (h_end_of h n) width any_match size_mod h.data = .error .fault) := by
  have hfit := hv.fits
  have nfit := nv.fits
  have hfuel : size_mod = (2 ^ 64 - 1) + 1 := by decide
  constructor
  · intro hnw
    rw [hfuel, block_loop, h_end_of_eq hfit hnw, mod_small (by omega : h.data + width < 2 ^ 64),
      if_neg (by omega)]
  · intro hnw hany
    rw [hfuel, block_loop, h_end_of_wrap (by omega) (by omega),
      mod_small (by omega : h.data + width < 2 ^ 64), if_pos (by omega), hany]

theorem after_n_zero (h : span_t) (hpos : 0 < h.len) (hfit : h.data < 2 ^ 64) :
    h.after_n 0 = h := by
  unfold span_t.after_n
  rw [if_pos hpos, Nat.add_zero, mod_small hfit, Nat.sub_zero]

theorem prefixed_null {mem : memory_t} {n : span_t} (nv : n.valid mem) (h5 : 5 ≤ n.len)
    (hnull : mem 0 = none) : prefixed_t.next_offset mem {} n = .error .fault := by
  have nfit := nv.fits
  obtain ⟨np, hnp⟩ := needle_load32 nv h5
  unfold prefixed_t.next_offset
  rw [if_neg (by omega), hnp]
  simp only
  have hfuel : size_mod = (2 ^ 64 - 1) + 1 := by decide
  have hend : h_end_of {} n = 2 ^ 64 - n.len := by
    unfold h_end_of
    show ((0 + 0) % 2 ^ 64 + 2 ^ 64 - n.len) % 2 ^ 64 = 2 ^ 64 - n.len
    simp only [Nat.zero_add, Nat.zero_mod]
    exact Nat.mod_eq_of_lt (by omega)
  rw [hfuel, prefixed_loop, hend, if_pos (by omega), load32_fault hnull]

theorem block_short {mem : memory_t} {h n : span_t} (hv : h.valid mem) (nv : n.valid mem)
    (h5 : 5 ≤ n.len) (hlt : h.len < n.len) (hnull : mem 0 = none)
    (hend : n.len ≤ h.data + h.len ∨ mem h.data = none) {width : Nat} (hw : width ≤ 64)
    (any_match : Nat → run_t Bool) (hany : mem h.data = none → any_match h.data = .error .fault) :
    block_finish mem h n (block_loop mem h n (h_end_of h n) width any_match size_mod h.data)
        = .ok not_found_k ∨
      block_finish mem h n (block_loop mem h n (h_end_of h n) width any_match size_mod h.data)
        = .error .fault := by
  have hfit := hv.fits
  obtain ⟨hnowrap, hwrap⟩ := block_loop_short hv nv hlt hw any_match
  by_cases hnw : n.len ≤ h.data + h.len
  · rw [hnowrap hnw]
    simp only [block_finish]
    rw [sub_small (Nat.le_refl _) (by omega), Nat.sub_self]
    by_cases hpos : 0 < h.len
    · rw [after_n_zero h hpos (by omega)]
      rcases prefixed_short hv nv h5 hlt hend with hp | hp
      · rw [hp]
        exact Or.inl (by simp)
      · rw [hp]
        exact Or.inr rfl
    · have he : h.after_n 0 = {} := by
        unfold span_t.after_n
        rw [if_neg hpos]
      rw [he, prefixed_null nv h5 hnull]
      exact Or.inr rfl
  · rw [hwrap hnw (hany (hend.resolve_left hnw))]
    exact Or.inr rfl

theorem speculative_any_eq (mem : memory_t) (np p : Nat) :
    speculative_avx2_any mem (_mm256_set1_epi32 np) p
      = prefixed_avx2_any mem (_mm256_set1_epi32 np) p := by
  unfold speculative_avx2_any prefixed_avx2_any prefixed_avx2_mask load_cmpeq_mask load_cmpeq
    _mm256_loadu_si256
  cases h0 : load_lanes mem 8 p with
  | error e => rfl
  | ok v0 =>
    cases h1 : load_lanes mem 8 ((p + 1) % size_mod) with
    | error e => rfl
    | ok v1 =>
      cases h2 : load_lanes mem 8 ((p + 2) % size_mod) with
      | error e => rfl
      | ok v2 =>
        cases h3 : load_lanes mem 8 ((p + 3) % size_mod) with
        | error e => rfl
        | ok v3 =>
          simp only
          have l0 := cmpeq_length v0 np (load_lanes_length mem _ _ _ h0)
          have l1 := cmpeq_length v1 np (load_lanes_length mem _ _ _ h1)
          have l2 := cmpeq_length v2 np (load_lanes_length mem _ _ _ h2)
          have l3 := cmpeq_length v3 np (load_lanes_length mem _ _ _ h3)
          have key : (_mm256_movemask_epi8 (_mm256_cmpeq_epi32 v0 (_mm256_set1_epi32 np)) |||
                _mm256_movemask_epi8 (_mm256_cmpeq_epi32 v1 (_mm256_set1_epi32 np)) |||
                _mm256_movemask_epi8 (_mm256_cmpeq_epi32 v2 (_mm256_set1_epi32 np)) |||
                _mm256_movemask_epi8 (_mm256_cmpeq_epi32 v3 (_mm256_set1_epi32 np)) = 0) ↔
              (_mm256_movemask_epi8 (_mm256_or_si256
                (_mm256_or_si256 (_mm256_cmpeq_epi32 v0 (_mm256_set1_epi32 np))
                  (_mm256_cmpeq_epi32 v1 (_mm256_set1_epi32 np)))
                (_mm256_or_si256 (_mm256_cmpeq_epi32 v2 (_mm256_set1_epi32 np))
                  (_mm256_cmpeq_epi32 v3 (_mm256_set1_epi32 np)))) = 0) := by
            rw [movemask_or _ _ (by rw [or_length _ _ (by omega), or_length _ _ (by omega)]; omega),
              movemask_or _ _ (by omega), movemask_or _ _ (by omega), lor_eq_zero, lor_eq_zero,
              lor_eq_zero]
            tauto
          simp only [ne_eq, key]

theorem speculative_eq_avx2 (mem : memory_t) (h n : span_t) :
    speculative_avx2_t.next_offset mem h n = prefixed_avx2_t.next_offset mem h n := by
  unfold speculative_avx2_t.next_offset prefixed_avx2_t.next_offset
  have hfun : ∀ np, speculative_avx2_any mem (_mm256_set1_epi32 np)
      = prefixed_avx2_any mem (_mm256_set1_epi32 np) :=
    fun np => funext (fun p => speculative_any_eq mem np p)
  simp only [hfun]

theorem hybrid_eq_avx2 {mem : memory_t} {h n : span_t} (hv : h.valid mem) (nv : n.valid mem)
    (hend : n.len ≤ h.data + h.len ∨ mem h.data = none) :
    hybrid_avx2_t.next_offset mem h n = prefixed_avx2_t.next_offset mem h n := by
  by_cases h5 : n.len < 5
  · unfold hybrid_avx2_t.next_offset prefixed_avx2_t.next_offset
    rw [if_pos h5, if_pos h5]
  · by_cases hle : n.len ≤ h.len
    · obtain ⟨r, hr, hfirst⟩ := hybrid_spec hv nv (by omega) hle
      obtain ⟨r', hr', hfirst'⟩ := avx2_spec hv nv (by omega) hle
      rw [hr, hr', is_first_occurrence_unique hfirst hfirst']
    · obtain ⟨np, hnp⟩ := needle_load32 nv (by omega : 5 ≤ n.len)
      unfold hybrid_avx2_t.next_offset prefixed_avx2_t.next_offset
      rw [if_neg h5, if_neg h5, hnp]
      simp only
      obtain ⟨a1, a2⟩ := block_loop_short hv nv (by omega : h.len < n.len) (by omega : 64 ≤ 64)
        (hybrid_avx2_any mem (_mm256_set1_epi32 np))
      obtain ⟨b1, b2⟩ := block_loop_short hv nv (by omega : h.len < n.len) (by omega : 32 ≤ 64)
        (prefixed_avx2_any mem (_mm256_set1_epi32 np))
      by_cases hnw : n.len ≤ h.data + h.len
      · rw [a1 hnw, b1 hnw]
      · have hnone := hend.resolve_left hnw
        rw [a2 hnw (hybrid_any_fault hnone _), b2 hnw (avx2_any_fault hnone _)]

theorem first_occurrence_sound {mem : memory_t} {h n : span_t} {r : Nat}
    (hfirst : is_first_occurrence mem h n r) (hne : r ≠ not_found_k) : occurs mem h n r := by
  rcases hfirst with ⟨ho, _⟩ | ⟨he, _⟩
  · exact ho
  · exact absurd he hne

/-- Away from the wrap of the end pointer: for a valid haystack and a valid
needle of at least 5 bytes, in a memory whose address 0 is not readable and
where the pointer
`haystack.data + haystack.len - needle.len` does not wrap below zero (or the
first haystack address is not readable, as for the null span): a value other
than `not_found_k` returned by `prefixed_t::next_offset` or by
`prefixed_autovec_t::next_offset` is an offset at which the whole needle
fits and matches byte for byte, and no offset at which the needle occurs is
equal to `not_found_k`. -/
theorem prefixed_engines_return_full_matches (mem : memory_t) (haystack needle : span_t)
    (hv : haystack.valid mem) (nv : needle.valid mem) (h5 : 5 ≤ needle.len)
    (hnull : mem 0 = none)
    (hend : needle.len ≤ haystack.data + haystack.len ∨ mem haystack.data = none) :
    (∀ off, prefixed_t.next_offset mem haystack needle = .ok off → off ≠ not_found_k →
      off + needle.len ≤ haystack.len ∧
        ∀ j, j < needle.len → mem (haystack.data + off + j) = mem (needle.data + j)) ∧
    (∀ off, prefixed_autovec_t.next_offset mem haystack needle = .ok off → off ≠ not_found_k →
      off + needle.len ≤ haystack.len ∧
        ∀ j, j < needle.len → mem (haystack.data + off + j) = mem (needle.data + j)) ∧
    (∀ off, occurs mem haystack needle off → off ≠ not_found_k) := by
  refine ⟨fun off hoff hne => ?_, fun off hoff hne => ?_, fun off hocc => ?_⟩
  · by_cases hle : needle.len ≤ haystack.len
    · obtain ⟨r, hr, hfirst⟩ := prefixed_spec hv nv h5 hle
      rw [hr] at hoff
      have hro : r = off := run_t.ok.inj hoff
      subst hro
      exact first_occurrence_sound hfirst hne
    · rcases prefixed_short hv nv h5 (by omega) hend with hp | hp
      · rw [hp] at hoff
        exact absurd (run_t.ok.inj hoff).symm hne
      · rw [hp] at hoff
        exact absurd hoff (by simp)
  · by_cases hle : needle.len ≤ haystack.len
    · obtain ⟨r, hr, hfirst⟩ := autovec_spec hv nv h5 hle
      rw [hr] at hoff
      have hro : r = off := run_t.ok.inj hoff
      subst hro
      exact first_occurrence_sound hfirst hne
    · obtain ⟨np, hnp⟩ := needle_load32 nv h5
      have hfit := hv.fits
      have hshort := block_short hv nv h5 (by omega : haystack.len < needle.len) hnull hend
        (by omega : 32 ≤ 64) (autovec_any mem np)
        (fun hnone => autovec_any_fault hnone (by omega) np)
      unfold prefixed_autovec_t.next_offset at hoff
      rw [if_neg (by omega), hnp] at hoff
      simp only at hoff
      rcases hshort with hp | hp
      · rw [hp] at hoff
        exact absurd (run_t.ok.inj hoff).symm hne
      · rw [hp] at hoff
        exact absurd hoff (by simp)
  · exact Nat.ne_of_lt (occurs_lt_not_found hv (by omega) hocc)

/-- Away from the wrap of the end pointer: for a valid haystack and a valid
non-empty needle, where the pointer
`haystack.data + haystack.len - needle.len` does not wrap below zero (or the
first haystack address is not readable, as for the null span),
`speculative_avx2_t::next_offset` and `hybrid_avx2_t::next_offset` have the
outcome of `prefixed_avx2_t::next_offset`; when the needle is not longer than
the haystack that outcome is a returned value, the first occurrence of the
needle or `not_found_k`. -/
theorem avx2_tunings_agree (mem : memory_t) (haystack needle : span_t)
    (hv : haystack.valid mem) (nv : needle.valid mem) (hn : 0 < needle.len)
    (hend : needle.len ≤ haystack.data + haystack.len ∨ mem haystack.data = none) :
    speculative_avx2_t.next_offset mem haystack needle
        = prefixed_avx2_t.next_offset mem haystack needle ∧
      hybrid_avx2_t.next_offset mem haystack needle
        = prefixed_avx2_t.next_offset mem haystack needle ∧
      (needle.len ≤ haystack.len →
        ∃ r, prefixed_avx2_t.next_offset mem haystack needle = .ok r ∧
          is_first_occurrence mem haystack needle r) := by
  refine ⟨speculative_eq_avx2 mem haystack needle, hybrid_eq_avx2 hv nv hend, fun hle => ?_⟩
  by_cases h5 : needle.len < 5
  · unfold prefixed_avx2_t.next_offset
    rw [if_pos h5]
    exact naive_spec hv nv hn
  · exact avx2_spec hv nv (by omega) hle

/-! ## The engines on example memories -/

theorem mem_of_valid (base : Nat) (bs : List Nat) (k len : Nat)
    (hfit : base + bs.length ≤ 2 ^ 63) (hin : k + len ≤ bs.length) :
    span_t.valid (mem_of base bs) { data := base + k, len := len } := by
  refine ⟨by simp only; omega, fun i hi => ?_⟩
  simp only at hi ⊢
  unfold mem_of
  rw [if_pos ⟨by omega, by omega⟩]
  simp

theorem haystack_blocks_valid : haystack_blocks.valid mem_blocks :=
  mem_of_valid 4096 _ 0 86 (by decide) (by decide)

theorem needle_blocks_valid : needle_blocks.valid mem_blocks :=
  mem_of_valid 4096 _ 86 6 (by decide) (by decide)


theorem naive_returns_first_occurrence_witness :
    haystack_blocks.valid mem_blocks ∧ needle_blocks.valid mem_blocks ∧ 0 < needle_blocks.len ∧
      ∃ r, naive_t.next_offset mem_blocks haystack_blocks needle_blocks = .ok r ∧
        (r ≠ not_found_k →
          (r + needle_blocks.len ≤ haystack_blocks.len ∧
            ∀ j, j < needle_blocks.len →
              mem_blocks (haystack_blocks.data + r + j) = mem_blocks (needle_blocks.data + j)) ∧
          ∀ o, o < r → ¬ occurs mem_blocks haystack_blocks needle_blocks o) ∧
        (r = not_found_k ↔ ∀ o, ¬ occurs mem_blocks haystack_blocks needle_blocks o) ∧
        r = stl_t.next_offset mem_blocks haystack_blocks needle_blocks :=
  ⟨haystack_blocks_valid, needle_blocks_valid, by decide,
    naive_returns_first_occurrence mem_blocks haystack_blocks needle_blocks haystack_blocks_valid
      needle_blocks_valid (by decide)⟩

theorem prefixed_agrees_with_naive_witness :
    haystack_blocks.valid mem_blocks ∧ needle_blocks.valid mem_blocks ∧ 5 ≤ needle_blocks.len ∧
      needle_blocks.len ≤ haystack_blocks.len ∧
      ∃ r, prefixed_t.next_offset mem_blocks haystack_blocks needle_blocks = .ok r ∧
        naive_t.next_offset mem_blocks haystack_blocks needle_blocks = .ok r ∧
        is_first_occurrence mem_blocks haystack_blocks needle_blocks r :=
  ⟨haystack_blocks_valid, needle_blocks_valid, by decide, by decide,
    prefixed_agrees_with_naive mem_blocks haystack_blocks needle_blocks haystack_blocks_valid
      needle_blocks_valid (by decide) (by decide)⟩

theorem autovec_agrees_with_naive_witness :
    haystack_blocks.valid mem_blocks ∧ needle_blocks.valid mem_blocks ∧ 5 ≤ needle_blocks.len ∧
      needle_blocks.len ≤ haystack_blocks.len ∧
      ∃ r, prefixed_autovec_t.next_offset mem_blocks haystack_blocks needle_blocks = .ok r ∧
        naive_t.next_offset mem_blocks haystack_blocks needle_blocks = .ok r ∧
        is_first_occurrence mem_blocks haystack_blocks needle_blocks r :=
  ⟨haystack_blocks_valid, needle_blocks_valid, by decide, by decide,
    autovec_agrees_with_naive mem_blocks haystack_blocks needle_blocks haystack_blocks_valid
      needle_blocks_valid (by decide) (by decide)⟩

theorem avx2_agrees_with_naive_witness :
    haystack_blocks.valid mem_blocks ∧ needle_blocks.valid mem_blocks ∧ 5 ≤ needle_blocks.len ∧
      needle_blocks.len ≤ haystack_blocks.len ∧
      ∃ r, prefixed_avx2_t.next_offset mem_blocks haystack_blocks needle_blocks = .ok r ∧
        naive_t.next_offset mem_blocks haystack_blocks needle_blocks = .ok r ∧
        is_first_occurrence mem_blocks haystack_blocks needle_blocks r :=
  ⟨haystack_blocks_valid, needle_blocks_valid, by decide, by decide,
    avx2_agrees_with_naive mem_blocks haystack_blocks needle_blocks haystack_blocks_valid
      needle_blocks_valid (by decide) (by decide)⟩

theorem prefixed_engines_return_full_matches_witness :
    haystack_blocks.valid mem_blocks ∧ needle_blocks.valid mem_blocks ∧ 5 ≤ needle_blocks.len ∧
      mem_blocks 0 = none ∧
      prefixed_t.next_offset mem_blocks haystack_blocks needle_blocks = .ok 30 ∧
      prefixed_autovec_t.next_offset mem_blocks haystack_blocks needle_blocks = .ok 30 ∧
      (30 + needle_blocks.len ≤ haystack_blocks.len ∧
        ∀ j, j < needle_blocks.len →
          mem_blocks (haystack_blocks.data + 30 + j) = mem_blocks (needle_blocks.data + j)) :=
  ⟨haystack_blocks_valid, needle_blocks_valid, by decide, by decide, by decide, by decide,
    (prefixed_engines_return_full_matches mem_blocks haystack_blocks needle_blocks
      haystack_blocks_valid needle_blocks_valid (by decide) (by decide)
      (Or.inl (by decide))).1 30 (by decide) (by decide)⟩

theorem avx2_tunings_agree_witness :
    haystack_blocks.valid mem_blocks ∧ needle_blocks.valid mem_blocks ∧ 0 < needle_blocks.len ∧
      needle_blocks.len ≤ haystack_blocks.data + haystack_blocks.len ∧
      speculative_avx2_t.next_offset mem_blocks haystack_blocks needle_blocks
        = prefixed_avx2_t.next_offset mem_blocks haystack_blocks needle_blocks ∧
      hybrid_avx2_t.next_offset mem_blocks haystack_blocks needle_blocks
        = prefixed_avx2_t.next_offset mem_blocks haystack_blocks needle_blocks ∧
      (needle_blocks.len ≤ haystack_blocks.len →
        ∃ r, prefixed_avx2_t.next_offset mem_blocks haystack_blocks needle_blocks = .ok r ∧
          is_first_occurrence mem_blocks haystack_blocks needle_blocks r) :=
  ⟨haystack_blocks_valid, needle_blocks_valid, by decide, by decide,
    avx2_tunings_agree mem_blocks haystack_blocks needle_blocks haystack_blocks_valid
      needle_blocks_valid (by decide) (Or.inl (by decide))⟩

/-- C8 at the null span: with the 5-byte needle `"abcde"` and the empty
haystack `{nullptr, 0}`, `naive_t::next_offset` returns `not_found_k`, while
in `prefixed_t::next_offset` the pointer `h_end` is `2 ^ 64 - 5`, the loop is
entered, and the read at address 0 faults; and
`prefixed_autovec_t::next_offset`, given an empty haystack at a non-null
address, hands the null span `haystack.after_n(0)` to `prefixed_t` and faults
in the same way. -/
theorem short_haystack_null_span_faults :
    naive_t.next_offset mem_abcde {} { data := 4096, len := 5 } = .ok not_found_k ∧
      h_end_of {} { data := 4096, len := 5 } = 2 ^ 64 - 5 ∧
      prefixed_t.next_offset mem_abcde {} { data := 4096, len := 5 } = .error .fault ∧
      span_t.after_n { data := 4096, len := 0 } 0 = {} ∧
      prefixed_autovec_t.next_offset mem_abcde { data := 4096, len := 0 }
        { data := 4096, len := 5 } = .error .fault := by
  decide

/-! ## The driver `find_all` on example memories -/

theorem find_all_loop_aaaa (fuel count_matches : Nat) (calls : List Nat) :
    find_all_loop naive_t.next_offset mem_aaaa { data := 4096, len := 4 }
        { data := 4100, len := 2 } fuel 1 count_matches calls
      = (calls ++ List.replicate fuel 0, .error .fuel) := by
  induction fuel generalizing count_matches calls with
  | zero => simp [find_all_loop]
  | succ f ih =>
    have hstep : naive_t.next_offset mem_aaaa
        (span_t.after_n { data := 4096, len := 4 } 1) { data := 4100, len := 2 } = .ok 0 := by
      decide
    rw [find_all_loop, hstep]
    simp only
    rw [if_pos (by decide), show (0 + 1) % size_mod = 1 by decide, ih,
      List.replicate_succ, List.append_assoc]
    rfl

/-- C4 on the spec's example: with the needle `"aa"` and the haystack `"aaaa"`,
`find_all` with `naive_t` calls the callback with 0 at each evaluation of its
loop condition and reaches no return, whatever the number of steps: the
callback arguments are `[0, 0, 0, ...]` and not `[0, 1, 2]`, and no count is
returned. -/
theorem find_all_aa_in_aaaa (fuel : Nat) :
    find_all naive_t.next_offset mem_aaaa { data := 4096, len := 4 } { data := 4100, len := 2 }
        fuel = (List.replicate fuel 0, .error .fuel) := by
  cases fuel with
  | zero => rfl
  | succ f =>
    have hstep : naive_t.next_offset mem_aaaa
        (span_t.after_n { data := 4096, len := 4 } 0) { data := 4100, len := 2 } = .ok 0 := by
      decide
    unfold find_all
    rw [find_all_loop, hstep]
    simp only
    rw [if_pos (by decide), show (0 + 1) % size_mod = 1 by decide, find_all_loop_aaaa,
      List.replicate_succ]
    rfl

/-- C5 on two examples: with the needle `"ab"` and the haystack `"xabxab"`
the first four callback arguments of `find_all` with `naive_t` are
`1, 2, 1, 2`, which is not increasing, and the needle does not occur at
offset 2 of the haystack; with the needle `"aa"` and the haystack `"aaaa"`
the first two callback arguments are `0, 0`. -/
theorem find_all_reports_relative_offsets :
    find_all naive_t.next_offset mem_xabxab { data := 4096, len := 6 }
        { data := 4102, len := 2 } 4 = ([1, 2, 1, 2], .error .fuel) ∧
      ¬ occurs mem_xabxab { data := 4096, len := 6 } { data := 4102, len := 2 } 2 ∧
      find_all naive_t.next_offset mem_aaaa { data := 4096, len := 4 }
        { data := 4100, len := 2 } 2 = ([0, 0], .error .fuel) := by
  decide

theorem find_all_loop_abab (fuel : Nat) :
    ∀ (count_matches : Nat) (calls : List Nat),
      (find_all_loop naive_t.next_offset mem_abab { data := 4096, len := 4 }
          { data := 4100, len := 2 } fuel 1 count_matches calls).2 = .error .fuel ∧
      (find_all_loop naive_t.next_offset mem_abab { data := 4096, len := 4 }
          { data := 4100, len := 2 } fuel 2 count_matches calls).2 = .error .fuel := by
  induction fuel with
  | zero => intro c calls; exact ⟨rfl, rfl⟩
  | succ f ih =>
    intro c calls
    have hstep1 : naive_t.next_offset mem_abab
        (span_t.after_n { data := 4096, len := 4 } 1) { data := 4100, len := 2 } = .ok 1 := by
      decide
    have hstep2 : naive_t.next_offset mem_abab
        (span_t.after_n { data := 4096, len := 4 } 2) { data := 4100, len := 2 } = .ok 0 := by
      decide
    constructor
    · rw [find_all_loop, hstep1]
      simp only
      rw [if_pos (by decide), show (1 + 1) % size_mod = 2 by decide]
      exact (ih _ _).2
    · rw [find_all_loop, hstep2]
      simp only
      rw [if_pos (by decide), show (0 + 1) % size_mod = 1 by decide]
      exact (ih _ _).1

/-- C6 on an example: with the needle `"ab"` and the haystack `"abab"`, in
which the needle occurs at the offsets 0 and 2, `find_all` with `naive_t`
does not return, whatever the number of evaluations of its loop condition:
no call of `next_offset` returns `not_found_k`. -/
theorem find_all_abab_never_returns (fuel : Nat) :
    (find_all naive_t.next_offset mem_abab { data := 4096, len := 4 } { data := 4100, len := 2 }
        fuel).2 = .error .fuel := by
  cases fuel with
  | zero => rfl
  | succ f =>
    have hstep : naive_t.next_offset mem_abab
        (span_t.after_n { data := 4096, len := 4 } 0) { data := 4100, len := 2 } = .ok 0 := by
      decide
    unfold find_all
    rw [find_all_loop, hstep]
    simp only
    rw [if_pos (by decide), show (0 + 1) % size_mod = 1 by decide]
    exact (find_all_loop_abab f _ _).1

/-! ## The span method `after_n` and the comparison `are_equal` -/

/-- C11: for a span `s` and an offset `k`: if `k < s.len` then `s.after_n(k)`
is the span `{s.data + k, s.len - k}` (the pointer sum taken modulo `2 ^ 64`,
and equal to `s.data + k` for a span that lies inside the address space), so
that byte `i` of the result is byte `k + i` of `s`; if `k >= s.len` it is the
empty span `{nullptr, 0}`.  The method is a function of `s` and `k` alone. -/
theorem after_n_contract (s : span_t) (k : Nat) :
    (k < s.len → s.after_n k = { data := (s.data + k) % size_mod, len := s.len - k }) ∧
      (k < s.len → s.data + s.len ≤ 2 ^ 64 →
        s.after_n k = { data := s.data + k, len := s.len - k } ∧
          ∀ (mem : memory_t) (i : Nat), i < (s.after_n k).len →
            k + i < s.len ∧ mem ((s.after_n k).data + i) = mem (s.data + (k + i))) ∧
      (s.len ≤ k → s.after_n k = { data := 0, len := 0 }) := by
  refine ⟨fun hk => ?_, fun hk hfit => ?_, fun hk => ?_⟩
  · unfold span_t.after_n
    rw [if_pos hk]
  · have he : s.after_n k = { data := s.data + k, len := s.len - k } := by
      unfold span_t.after_n
      rw [if_pos hk, mod_small (by omega)]
    refine ⟨he, fun mem i hi => ?_⟩
    rw [he] at hi ⊢
    simp only at hi ⊢
    exact ⟨by omega, by rw [Nat.add_assoc]⟩
  · unfold span_t.after_n
    rw [if_neg (by omega)]

theorem are_equal_loop_stops (mem : memory_t) (m : Nat) :
    ∀ (fuel a b len : Nat), m < len → m < fuel → a + len < 2 ^ 64 → b + len < 2 ^ 64 →
      (∀ j, j ≤ m → mem (a + j) ≠ none) → (∀ j, j ≤ m → mem (b + j) ≠ none) →
      (∀ j, j < m → mem (a + j) = mem (b + j)) → mem (a + m) ≠ mem (b + m) →
      are_equal_loop mem (a + len) fuel a b = .ok false := by
  induction m with
  | zero =>
    intro fuel a b len hlen hf ha hb hra hrb _ hne
    obtain ⟨f, rfl⟩ : ∃ f, fuel = f + 1 := ⟨fuel - 1, by omega⟩
    obtain ⟨x, hx, hlx⟩ := load8_ok (hra 0 (by omega))
    obtain ⟨y, hy, hly⟩ := load8_ok (hrb 0 (by omega))
    simp only [Nat.add_zero] at hx hy hlx hly hne
    have hxy : x ≠ y := fun h => hne (by rw [hx, hy, h])
    rw [are_equal_loop, if_pos (by omega : a ≠ a + len), hlx, hly]
    simp only
    rw [if_neg hxy]
    simp
    omega
  | succ m ih =>
    intro fuel a b len hlen hf ha hb hra hrb heq hne
    obtain ⟨f, rfl⟩ : ∃ f, fuel = f + 1 := ⟨fuel - 1, by omega⟩
    obtain ⟨x, hx, hlx⟩ := load8_ok (hra 0 (by omega))
    obtain ⟨y, hy, hly⟩ := load8_ok (hrb 0 (by omega))
    simp only [Nat.add_zero] at hx hy hlx hly
    have hxy : x = y := by
      have := heq 0 (by omega)
      simp only [Nat.add_zero] at this
      rw [hx, hy] at this
      exact Option.some.inj this
    rw [are_equal_loop, if_pos (by omega : a ≠ a + len), hlx, hly]
    simp only
    rw [if_pos hxy, mod_small (by omega : a + 1 < 2 ^ 64), mod_small (by omega : b + 1 < 2 ^ 64),
      show a + len = (a + 1) + (len - 1) by omega]
    refine ih f (a + 1) (b + 1) (len - 1) (by omega) (by omega) (by omega) (by omega)
      (fun j hj => ?_) (fun j hj => ?_) (fun j hj => ?_) ?_
    · have := hra (j + 1) (by omega)
      rwa [show a + (j + 1) = a + 1 + j by omega] at this
    · have := hrb (j + 1) (by omega)
      rwa [show b + (j + 1) = b + 1 + j by omega] at this
    · have := heq (j + 1) (by omega)
      rwa [show a + (j + 1) = a + 1 + j by omega, show b + (j + 1) = b + 1 + j by omega] at this
    · rwa [show a + (m + 1) = a + 1 + m by omega, show b + (m + 1) = b + 1 + m by omega] at hne

/-- C12: for byte sequences at `a` and `b` of `len` elements inside the address
space: if both are readable for `len` elements, `are_equal(a, b, len)`
returns a value, `true` if and only if `a[i] = b[i]` for every `i < len`, and
`true` when `len = 0`; and if `m < len` is the first index with
`a[m] != b[m]`, then `are_equal` returns `false` as soon as the elements up
to index `m` are readable: no element after the first mismatch is read. -/
theorem are_equal_contract (mem : memory_t) (a b len : Nat) (ha : a + len < 2 ^ 64)
    (hb : b + len < 2 ^ 64) :
    ((∀ j, j < len → mem (a + j) ≠ none) → (∀ j, j < len → mem (b + j) ≠ none) →
        ∃ r, are_equal mem a b len = .ok r ∧
          (r = true ↔ ∀ i, i < len → mem (a + i) = mem (b + i)) ∧ (len = 0 → r = true)) ∧
      (∀ m, m < len → (∀ j, j ≤ m → mem (a + j) ≠ none) → (∀ j, j ≤ m → mem (b + j) ≠ none) →
        (∀ j, j < m → mem (a + j) = mem (b + j)) → mem (a + m) ≠ mem (b + m) →
        are_equal mem a b len = .ok false) := by
  refine ⟨fun hra hrb => ?_, fun m hm hra hrb heq hne => ?_⟩
  · obtain ⟨r, hr, hiff⟩ := are_equal_spec mem a b len ha hb hra hrb
    exact ⟨r, hr, hiff, fun h0 => hiff.2 (fun i hi => by omega)⟩
  · unfold are_equal
    rw [mod_small ha]
    exact are_equal_loop_stops mem m size_mod a b len hm (by show m < 2 ^ 64; omega) ha hb hra hrb
      heq hne

theorem are_equal_contract_witness :
    (∃ r, are_equal mem_abcde 4096 4096 5 = .ok r ∧
        (r = true ↔ ∀ i, i < 5 → mem_abcde (4096 + i) = mem_abcde (4096 + i)) ∧
        ((5 : Nat) = 0 → r = true)) ∧
      mem_xabxab (4099 + 5) = none ∧ are_equal mem_xabxab 4096 4099 6 = .ok false :=
  ⟨(are_equal_contract mem_abcde 4096 4096 5 (by decide) (by decide)).1 (by decide) (by decide),
    by decide,
    (are_equal_contract mem_xabxab 4096 4099 6 (by decide) (by decide)).2 3 (by decide)
      (by decide) (by decide) (by decide) (by decide)⟩

/-- C13: for a needle of 1 to 4 bytes each of `prefixed_t`,
`prefixed_autovec_t`, `prefixed_avx2_t`, `speculative_avx2_t` and
`hybrid_avx2_t` has the outcome of `naive_t::next_offset` on the same
haystack and needle, in every memory. -/
theorem short_needles_route_to_naive (mem : memory_t) (haystack needle : span_t)
    (h1 : 1 ≤ needle.len) (h4 : needle.len ≤ 4) :
    prefixed_t.next_offset mem haystack needle = naive_t.next_offset mem haystack needle ∧
      prefixed_autovec_t.next_offset mem haystack needle
        = naive_t.next_offset mem haystack needle ∧
      prefixed_avx2_t.next_offset mem haystack needle
        = naive_t.next_offset mem haystack needle ∧
      speculative_avx2_t.next_offset mem haystack needle
        = naive_t.next_offset mem haystack needle ∧
      hybrid_avx2_t.next_offset mem haystack needle
        = naive_t.next_offset mem haystack needle := by
  have h5 : needle.len < 5 := by omega
  refine ⟨?_, ?_, ?_, ?_, ?_⟩
  · unfold prefixed_t.next_offset
    rw [if_pos h5]
  · unfold prefixed_autovec_t.next_offset
    rw [if_pos h5]
  · unfold prefixed_avx2_t.next_offset
    rw [if_pos h5]
  · unfold speculative_avx2_t.next_offset
    rw [if_pos h5]
  · unfold hybrid_avx2_t.next_offset
    rw [if_pos h5]

theorem short_needles_route_to_naive_witness :
    prefixed_t.next_offset mem_aaaa { data := 4096, len := 4 } { data := 4100, len := 2 }
        = .ok 0 ∧
      hybrid_avx2_t.next_offset mem_aaaa { data := 4096, len := 4 } { data := 4100, len := 2 }
        = .ok 0 := by
  have h := short_needles_route_to_naive mem_aaaa { data := 4096, len := 4 }
    { data := 4100, len := 2 } (by decide) (by decide)
  have hn : naive_t.next_offset mem_aaaa { data := 4096, len := 4 } { data := 4100, len := 2 }
      = .ok 0 := by decide
  exact ⟨h.1.trans hn, h.2.2.2.2.trans hn⟩

/-! ## The tail of `prefixed_autovec_t` and the mask of `prefixed_avx2_t` -/

/-- C15, as amended: for a valid haystack and a valid needle with
`5 <= needle.len <= haystack.len` the block loop of `prefixed_autovec_t`
ends, and when it ends at a pointer `h_ptr` for the tail, the span
`haystack.after_n(h_ptr - haystack.data)` handed to `prefixed_t` is at least
`needle.len` and at most `needle.len + 31` bytes long, so that at most 32
start positions are left in it. -/
theorem autovec_tail_length (mem : memory_t) (haystack needle : span_t)
    (hv : haystack.valid mem) (nv : needle.valid mem) (h5 : 5 ≤ needle.len)
    (hle : needle.len ≤ haystack.len) :
    ∃ np, load32 mem needle.data = .ok np ∧
      ∃ ex, block_loop mem haystack needle (h_end_of haystack needle) 32 (autovec_any mem np)
          size_mod haystack.data = .ok ex ∧
        ∀ h_ptr, ex = .tail h_ptr →
          needle.len ≤ (haystack.after_n ((h_ptr + size_mod - haystack.data) % size_mod)).len ∧
          (haystack.after_n ((h_ptr + size_mod - haystack.data) % size_mod)).len
            ≤ needle.len + 31 ∧
          (haystack.after_n ((h_ptr + size_mod - haystack.data) % size_mod)).len
            - needle.len + 1 ≤ 32 := by
  have hfit := hv.fits
  obtain ⟨np, hnp⟩ := needle_load32 nv h5
  refine ⟨np, hnp, ?_⟩
  rw [h_end_of_eq hfit (by omega)]
  have hd : haystack.len - needle.len - 0 < (haystack.len - needle.len) * 32 + 32 := by omega
  obtain ⟨ex, hex, hcase⟩ := block_loop_spec hv nv hle (by omega : 0 < 32) (by omega : 32 ≤ 64)
    (autovec_filter_complete hv nv h5 hle hnp) (haystack.len - needle.len) size_mod 0
    (by omega) hd (by show haystack.len - needle.len < 2 ^ 64; omega) (fun o ho => by omega)
  rw [Nat.add_zero] at hex
  refine ⟨ex, hex, fun h_ptr hp => ?_⟩
  rcases hcase with ⟨r, hr, _⟩ | ⟨b, hb, hb1, hb2, _⟩
  · rw [hr] at hp
    exact absurd hp (by simp)
  · rw [hb] at hp
    have hpb : haystack.data + b = h_ptr := block_exit_t.tail.inj hp
    subst hpb
    rw [sub_small (by omega) (by omega), show haystack.data + b - haystack.data = b by omega,
      (after_n_valid hv (by omega : b < haystack.len)).1]
    simp only
    omega

theorem autovec_tail_length_witness :
    block_loop mem_tail70 { data := 4096, len := 70 } { data := 4166, len := 5 }
        (h_end_of { data := 4096, len := 70 } { data := 4166, len := 5 }) 32
        (autovec_any mem_tail70 1684234849) size_mod 4096 = .ok (.tail 4160) ∧
      (5 ≤ (span_t.after_n { data := 4096, len := 70 }
          ((4160 + size_mod - 4096) % size_mod)).len ∧
        (span_t.after_n { data := 4096, len := 70 } ((4160 + size_mod - 4096) % size_mod)).len
          ≤ 5 + 31 ∧
        (span_t.after_n { data := 4096, len := 70 } ((4160 + size_mod - 4096) % size_mod)).len
          - 5 + 1 ≤ 32) ∧
      span_t.after_n { data := 4096, len := 70 } ((4160 + size_mod - 4096) % size_mod)
        = { data := 4160, len := 6 } := by
  obtain ⟨np, hnp, ex, hex, hbound⟩ :=
    autovec_tail_length mem_tail70 { data := 4096, len := 70 } { data := 4166, len := 5 }
      (mem_of_valid 4096 _ 0 70 (by decide) (by decide))
      (mem_of_valid 4096 _ 70 5 (by decide) (by decide)) (by decide) (by decide)
  have hnp' : load32 mem_tail70 4166 = .ok 1684234849 := by decide
  have hnpe : np = 1684234849 := by
    have h1 : load32 mem_tail70 4166 = .ok np := hnp
    rw [hnp'] at h1
    exact (run_t.ok.inj h1).symm
  subst hnpe
  have hex' : block_loop mem_tail70 { data := 4096, len := 70 } { data := 4166, len := 5 }
      (h_end_of { data := 4096, len := 70 } { data := 4166, len := 5 }) 32
      (autovec_any mem_tail70 1684234849) size_mod 4096 = .ok (.tail 4160) := by decide
  have hexe : ex = .tail 4160 := by
    have h1 := hex
    simp only at h1
    rw [hex'] at h1
    exact (run_t.ok.inj h1).symm
  exact ⟨hex', hbound 4160 hexe, by decide⟩

/-- C15 as stated fails: with a haystack of 36 bytes and the 5-byte needle
`"abcde"` the block loop of `prefixed_autovec_t` ends at once, the tail is the
whole haystack, 36 = 5 + 31 bytes, and the start positions left in it are the
32 offsets 0 to 31, which is not fewer than 32; the needle occurs at the last
of them and `prefixed_autovec_t` returns it. -/
theorem autovec_tail_32_candidates :
    load32 mem_tail36 4132 = .ok 1684234849 ∧
      block_loop mem_tail36 { data := 4096, len := 36 } { data := 4132, len := 5 }
          (h_end_of { data := 4096, len := 36 } { data := 4132, len := 5 }) 32
          (autovec_any mem_tail36 1684234849) size_mod 4096 = .ok (.tail 4096) ∧
      (span_t.after_n { data := 4096, len := 36 } ((4096 + size_mod - 4096) % size_mod)).len
        = 36 ∧
      ¬ ((span_t.after_n { data := 4096, len := 36 }
          ((4096 + size_mod - 4096) % size_mod)).len - 5 + 1 < 32) ∧
      occurs mem_tail36 { data := 4096, len := 36 } { data := 4132, len := 5 } 31 ∧
      prefixed_autovec_t.next_offset mem_tail36 { data := 4096, len := 36 }
        { data := 4132, len := 5 } = .ok 31 := by
  decide

theorem load_cmpeq_lanes {mem : memory_t} {h n : span_t} (hv : h.valid mem) (nv : n.valid mem)
    (h5 : 5 ≤ n.len) {np : Nat} (hnp : load32 mem n.data = .ok np) {o : Nat}
    (ho : o + 32 ≤ h.len) :
    ∃ c, load_cmpeq mem (_mm256_set1_epi32 np) (h.data + o) = .ok c ∧
      ∀ l, l < 8 → (lane c l ≠ 0 ↔ prefix_at mem h n (o + 4 * l)) := by
  obtain ⟨ws, hws, hlen, hlanes⟩ := load_lanes_haystack hv nv h5 hnp 8 o (by omega)
  refine ⟨_mm256_cmpeq_epi32 ws (_mm256_set1_epi32 np), ?_, fun l hl => ?_⟩
  · unfold load_cmpeq _mm256_loadu_si256
    rw [hws]
  · unfold _mm256_cmpeq_epi32 _mm256_set1_epi32
    rw [lane_zipWith _ ws _ l (by omega) (by rw [List.length_replicate]; omega),
      lane_replicate 8 np l hl, ← hlanes l hl]
    by_cases he : lane ws l = np
    · rw [if_pos he]
      simp [he]
    · rw [if_neg he]
      simp only [ne_eq, not_true_eq_false, false_iff]
      exact fun hh => he hh.symm

/-- C16: for a valid haystack and a valid needle with
`5 <= needle.len <= haystack.len` and a block start `p` with
`p + 32 <= haystack.len - needle.len`, the mask of `prefixed_avx2_t` for the
block has a value, and it is non-zero if and only if for some `i < 32` the
four haystack bytes at `p + i` equal the needle's first four bytes.  Lane `l`
of the compared load at byte offset `k` is non-zero exactly when the bytes at
`p + k + 4 * l` match, and each `i < 32` is `k + 4 * l` for exactly one pair
`k < 4`, `l < 8`.  A zero mask means that the needle occurs at none of the 32
start positions of the block. -/
theorem avx2_mask_nonzero_iff (mem : memory_t) (haystack needle : span_t)
    (hv : haystack.valid mem) (nv : needle.valid mem) (h5 : 5 ≤ needle.len)
    (hle : needle.len ≤ haystack.len) (p : Nat) (hp : p + 32 ≤ haystack.len - needle.len) :
    ∃ np, load32 mem needle.data = .ok np ∧
      ∃ mask, prefixed_avx2_mask mem (_mm256_set1_epi32 np) (haystack.data + p) = .ok mask ∧
        (mask ≠ 0 ↔ ∃ i, i < 32 ∧ prefix_at mem haystack needle (p + i)) ∧
        (∀ k, k < 4 →
          ∃ c, load_cmpeq mem (_mm256_set1_epi32 np) (haystack.data + p + k) = .ok c ∧
            ∀ l, l < 8 → (lane c l ≠ 0 ↔ prefix_at mem haystack needle (p + (k + 4 * l)))) ∧
        (∀ i, i < 32 →
          ∃ k l, k < 4 ∧ l < 8 ∧ i = k + 4 * l ∧
            ∀ k' l', k' < 4 → l' < 8 → i = k' + 4 * l' → k' = k ∧ l' = l) ∧
        (mask = 0 → ∀ i, i < 32 → ¬ occurs mem haystack needle (p + i)) := by
  have hfit := hv.fits
  obtain ⟨np, hnp⟩ := needle_load32 nv h5
  obtain ⟨mask, hmask, hz⟩ := avx2_mask_spec hv nv h5 hle hnp hp
  refine ⟨np, hnp, mask, hmask, ?_, fun k hk => ?_, fun i hi => ?_, fun h0 i hi hocc => ?_⟩
  · constructor
    · intro hne
      by_contra hno
      exact hne (hz.2 (fun i hi hpre => hno ⟨i, hi, hpre⟩))
    · rintro ⟨i, hi, hpre⟩ h0
      exact hz.1 h0 i hi hpre
  · obtain ⟨c, hc, hl⟩ := load_cmpeq_lanes hv nv h5 hnp (by omega : p + k + 32 ≤ haystack.len)
    refine ⟨c, by rw [show haystack.data + p + k = haystack.data + (p + k) by omega]; exact hc,
      fun l hl8 => ?_⟩
    rw [show p + (k + 4 * l) = p + k + 4 * l by omega]
    exact hl l hl8
  · exact ⟨i % 4, i / 4, by omega, by omega, by omega, fun k' l' hk' hl' he => by omega⟩
  · exact hz.1 h0 i hi (occurs_prefix_at h5 hocc)

theorem avx2_mask_nonzero_iff_witness :
    ∃ np, load32 mem_blocks needle_blocks.data = .ok np ∧
      ∃ mask, prefixed_avx2_mask mem_blocks (_mm256_set1_epi32 np) (haystack_blocks.data + 0)
          = .ok mask ∧
        (mask ≠ 0 ↔ ∃ i, i < 32 ∧ prefix_at mem_blocks haystack_blocks needle_blocks (0 + i)) :=
  let ⟨np, hnp, mask, hmask, hiff, _⟩ :=
    avx2_mask_nonzero_iff mem_blocks haystack_blocks needle_blocks haystack_blocks_valid
      needle_blocks_valid (by decide) (by decide) 0 (by decide)
  ⟨np, hnp, mask, hmask, hiff⟩

/-! ## The driver `find_all` in general -/

theorem find_all_loop_chain (engine : engine_t) (mem : memory_t) (h n : span_t) :
    ∀ (fuel next_offset count_matches : Nat) (calls : List Nat),
      ∃ vs, (find_all_loop engine mem h n fuel next_offset count_matches calls).1 = calls ++ vs ∧
        search_chain engine mem h n next_offset vs := by
  intro fuel
  induction fuel with
  | zero =>
    intro nx c calls
    exact ⟨[], by simp [find_all_loop], trivial⟩
  | succ f ih =>
    intro nx c calls
    rw [find_all_loop]
    cases he : engine mem (h.after_n nx) n with
    | error e => exact ⟨[], by simp, trivial⟩
    | ok v =>
      simp only
      by_cases hv : v = not_found_k
      · rw [if_neg (by simpa using hv)]
        exact ⟨[], by simp, trivial⟩
      · rw [if_pos hv]
        obtain ⟨vs, hvs, hchain⟩ := ih ((v + 1) % size_mod) ((c + 1) % size_mod) (calls ++ [v])
        refine ⟨v :: vs, ?_, he, hv, hchain⟩
        rw [hvs, List.append_assoc]
        rfl

theorem search_chain_index (engine : engine_t) (mem : memory_t) (h n : span_t) :
    ∀ (vs : List Nat) (next_offset : Nat), search_chain engine mem h n next_offset vs →
      (∀ v, vs[0]? = some v → engine mem (h.after_n next_offset) n = .ok v ∧ v ≠ not_found_k) ∧
      (∀ (i : Nat) v, vs[i]? = some v →
        ∃ nx, engine mem (h.after_n nx) n = .ok v ∧ v ≠ not_found_k) ∧
      (∀ (i : Nat) p m, vs[i]? = some p → vs[i + 1]? = some m →
        engine mem (h.after_n ((p + 1) % size_mod)) n = .ok m ∧ m ≠ not_found_k) := by
  intro vs
  induction vs with
  | nil =>
    intro nx _
    refine ⟨fun v hv => ?_, fun i v hv => ?_, fun i p m hp _ => ?_⟩
    · simp at hv
    · simp at hv
    · simp at hp
  | cons w ws ih =>
    intro nx hchain
    obtain ⟨hw, hne, hrest⟩ := hchain
    obtain ⟨ih0, ih1, ih2⟩ := ih _ hrest
    refine ⟨fun v hv => ?_, fun i v hv => ?_, fun i p m hp hm => ?_⟩
    · simp only [List.getElem?_cons_zero, Option.some.injEq] at hv
      subst hv
      exact ⟨hw, hne⟩
    · cases i with
      | zero =>
        simp only [List.getElem?_cons_zero, Option.some.injEq] at hv
        subst hv
        exact ⟨nx, hw, hne⟩
      | succ i =>
        rw [List.getElem?_cons_succ] at hv
        exact ih1 i v hv
    · rw [List.getElem?_cons_succ] at hm
      cases i with
      | zero =>
        simp only [List.getElem?_cons_zero, Option.some.injEq] at hp
        subst hp
        exact ih0 m hm
      | succ i =>
        rw [List.getElem?_cons_succ] at hp
        exact ih2 i p m hp hm

theorem naive_empty (mem : memory_t) (n : span_t) (hn : 0 < n.len) :
    naive_t.next_offset mem {} n = .ok not_found_k := by
  unfold naive_t.next_offset
  rw [if_pos (by simpa using hn)]

theorem sub_search {mem : memory_t} {h n : span_t} (hv : h.valid mem) (nv : n.valid mem)
    (hn : 0 < n.len) (next_offset : Nat) :
    ∃ r, naive_t.next_offset mem (h.after_n next_offset) n = .ok r ∧
      ((r = not_found_k ∧ ∀ o, next_offset ≤ o → ¬ occurs mem h n o) ∨
        (r ≠ not_found_k ∧ occurs mem h n (next_offset + r) ∧
          ∀ o, next_offset ≤ o → o < next_offset + r → ¬ occurs mem h n o)) := by
  by_cases hlt : next_offset < h.len
  · obtain ⟨he, hsv⟩ := after_n_valid hv hlt
    rw [he]
    rw [he] at hsv
    obtain ⟨r, hr, hfirst⟩ := naive_spec hsv nv hn
    refine ⟨r, hr, ?_⟩
    rcases hfirst with ⟨hocc, hmin⟩ | ⟨rfl, hall⟩
    · refine Or.inr ⟨Nat.ne_of_lt (occurs_lt_not_found hsv hn hocc),
        (occurs_after_n (by omega : next_offset ≤ h.len) r).1 hocc, fun o h1 h2 hoo => ?_⟩
      refine hmin (o - next_offset) (by omega)
        ((occurs_after_n (by omega : next_offset ≤ h.len) (o - next_offset)).2 ?_)
      rwa [show next_offset + (o - next_offset) = o by omega]
    · refine Or.inl ⟨rfl, fun o h1 hoo => ?_⟩
      refine hall (o - next_offset)
        ((occurs_after_n (by omega : next_offset ≤ h.len) (o - next_offset)).2 ?_)
      rwa [show next_offset + (o - next_offset) = o by omega]
  · have he : h.after_n next_offset = {} := by
      unfold span_t.after_n
      rw [if_neg hlt]
    rw [he, naive_empty mem n hn]
    refine ⟨not_found_k, rfl, Or.inl ⟨rfl, fun o h1 hoo => ?_⟩⟩
    have := hoo.1
    omega

theorem sub_search_small {mem : memory_t} {h n : span_t} (hv : h.valid mem) (nv : n.valid mem)
    (hn : 0 < n.len) {next_offset r : Nat}
    (hr : naive_t.next_offset mem (h.after_n next_offset) n = .ok r) (hne : r ≠ not_found_k) :
    (r + 1) % size_mod = r + 1 ∧ occurs mem h n (next_offset + r) ∧
      ∀ o, next_offset ≤ o → o < next_offset + r → ¬ occurs mem h n o := by
  obtain ⟨r', hr', hcase⟩ := sub_search hv nv hn next_offset
  rw [hr] at hr'
  have hrr : r = r' := run_t.ok.inj hr'
  subst hrr
  rcases hcase with ⟨he, _⟩ | ⟨_, hocc, hmin⟩
  · exact absurd he hne
  · have h1 := hocc.1
    have h2 := hv.fits
    exact ⟨mod_small (by omega), hocc, hmin⟩

theorem search_chain_ne (engine : engine_t) (mem : memory_t) (h n : span_t) :
    ∀ (vs : List Nat) (next_offset : Nat), search_chain engine mem h n next_offset vs →
      ∀ v, v ∈ vs → v ≠ not_found_k := by
  intro vs
  induction vs with
  | nil => intro _ _ v hv; simp at hv
  | cons w ws ih =>
    intro nx hchain v hv
    obtain ⟨_, hne, hrest⟩ := hchain
    rcases List.mem_cons.1 hv with rfl | hmem
    · exact hne
    · exact ih _ hrest v hmem

theorem find_all_chain (engine : engine_t) (mem : memory_t) (h n : span_t) (fuel : Nat) :
    search_chain engine mem h n 0 (find_all engine mem h n fuel).1 := by
  obtain ⟨vs, hvs, hchain⟩ := find_all_loop_chain engine mem h n fuel 0 0 []
  unfold find_all
  rw [hvs, List.nil_append]
  exact hchain

theorem first_search {mem : memory_t} {h n : span_t} (hv : h.valid mem) (hn : 0 < n.len)
    {v : Nat} (hr : naive_t.next_offset mem (h.after_n 0) n = .ok v) (hne : v ≠ not_found_k) :
    naive_t.next_offset mem h n = .ok v := by
  have hfit := hv.fits
  by_cases hpos : 0 < h.len
  · rwa [after_n_zero h hpos (by omega)] at hr
  · have he : h.after_n 0 = {} := by
      unfold span_t.after_n
      rw [if_neg hpos]
    rw [he, naive_empty mem n hn] at hr
    exact absurd (run_t.ok.inj hr).symm hne

/-- C19: for a valid haystack and a valid non-empty needle, and any number of
steps of `find_all` with `naive_t`: the first value passed to the callback is
the value of `naive_t::next_offset(haystack, needle)`; each later value `m`,
passed after the value `p`, is the value of
`naive_t::next_offset(haystack.after_n(p + 1), needle)`, so that `m` counts
from byte `p + 1` of the haystack: the needle occurs at offset `p + 1 + m` of
the haystack and at no offset from `p + 1` up to there. -/
theorem find_all_callback_values (mem : memory_t) (haystack needle : span_t)
    (hv : haystack.valid mem) (nv : needle.valid mem) (hn : 0 < needle.len) (fuel : Nat) :
    (∀ v, (find_all naive_t.next_offset mem haystack needle fuel).1[0]? = some v →
        naive_t.next_offset mem haystack needle = .ok v) ∧
      (∀ (i : Nat) p m,
        (find_all naive_t.next_offset mem haystack needle fuel).1[i]? = some p →
        (find_all naive_t.next_offset mem haystack needle fuel).1[i + 1]? = some m →
        naive_t.next_offset mem (haystack.after_n (p + 1)) needle = .ok m ∧
          occurs mem haystack needle (p + 1 + m) ∧
          ∀ o, p + 1 ≤ o → o < p + 1 + m → ¬ occurs mem haystack needle o) := by
  obtain ⟨h0, h1, h2⟩ := search_chain_index naive_t.next_offset mem haystack needle _ 0
    (find_all_chain naive_t.next_offset mem haystack needle fuel)
  refine ⟨fun v hv0 => ?_, fun i p m hp hm => ?_⟩
  · obtain ⟨hr, hne⟩ := h0 v hv0
    exact first_search hv hn hr hne
  · obtain ⟨nx, hpr, hpne⟩ := h1 i p hp
    obtain ⟨hmr, hmne⟩ := h2 i p m hp hm
    rw [(sub_search_small hv nv hn hpr hpne).1] at hmr
    obtain ⟨_, hocc, hmin⟩ := sub_search_small hv nv hn hmr hmne
    exact ⟨hmr, hocc, hmin⟩

theorem find_all_callback_values_witness :
    (find_all naive_t.next_offset mem_blocks haystack_blocks needle_blocks 3).1 = [30, 49, 30] ∧
      naive_t.next_offset mem_blocks (haystack_blocks.after_n (30 + 1)) needle_blocks = .ok 49 ∧
      occurs mem_blocks haystack_blocks needle_blocks (30 + 1 + 49) ∧
      ∀ o, 30 + 1 ≤ o → o < 30 + 1 + 49 → ¬ occurs mem_blocks haystack_blocks needle_blocks o :=
  ⟨by decide,
    (find_all_callback_values mem_blocks haystack_blocks needle_blocks haystack_blocks_valid
      needle_blocks_valid (by decide) 3).2 0 30 49 (by decide) (by decide)⟩

theorem find_all_loop_diverges {mem : memory_t} {h n : span_t} (hv : h.valid mem)
    (nv : n.valid mem) (hn : 0 < n.len) {A : Nat} (hA : occurs mem h n A) :
    ∀ (fuel next_offset count_matches : Nat) (calls : List Nat),
      1 ≤ next_offset → next_offset ≤ A →
      (find_all_loop naive_t.next_offset mem h n fuel next_offset count_matches calls).2
          = .error .fuel ∧
        (find_all_loop naive_t.next_offset mem h n fuel next_offset count_matches calls).1.length
          = calls.length + fuel := by
  intro fuel
  induction fuel with
  | zero => intro nx c calls _ _; exact ⟨rfl, rfl⟩
  | succ f ih =>
    intro nx c calls h1 hle
    obtain ⟨r, hr, hcase⟩ := sub_search hv nv hn nx
    rw [find_all_loop, hr]
    simp only
    rcases hcase with ⟨_, hall⟩ | ⟨hne, hocc, hmin⟩
    · exact absurd hA (hall A hle)
    · have hsmall := (sub_search_small hv nv hn hr hne).1
      have hrA : nx + r ≤ A := by
        by_contra hgt
        exact hmin A hle (by omega) hA
      rw [if_pos hne, hsmall]
      obtain ⟨e1, e2⟩ := ih (r + 1) ((c + 1) % size_mod) (calls ++ [r]) (by omega) (by omega)
      refine ⟨e1, ?_⟩
      rw [e2, List.length_append, List.length_singleton]
      omega

theorem find_all_diverges {mem : memory_t} {h n : span_t} (hv : h.valid mem)
    (nv : n.valid mem) (hn : 0 < n.len) {o1 o2 : Nat} (hne : o1 ≠ o2)
    (h1 : occurs mem h n o1) (h2 : occurs mem h n o2) (fuel : Nat) :
    (find_all naive_t.next_offset mem h n fuel).2 = .error .fuel ∧
      (find_all naive_t.next_offset mem h n fuel).1.length = fuel := by
  cases fuel with
  | zero => exact ⟨rfl, rfl⟩
  | succ f =>
    obtain ⟨r, hr, hcase⟩ := sub_search hv nv hn 0
    unfold find_all
    rw [find_all_loop, hr]
    simp only
    rcases hcase with ⟨_, hall⟩ | ⟨hrne, hocc, hmin⟩
    · exact absurd h1 (hall o1 (by omega))
    · have hsmall := (sub_search_small hv nv hn hr hrne).1
      rw [Nat.zero_add] at hocc hmin
      have hr1 : r ≤ o1 := by
        by_contra hgt
        exact hmin o1 (by omega) (by omega) h1
      have hr2 : r ≤ o2 := by
        by_contra hgt
        exact hmin o2 (by omega) (by omega) h2
      rw [if_pos hrne, hsmall]
      by_cases hlt : r < o1
      · obtain ⟨e1, e2⟩ := find_all_loop_diverges hv nv hn h1 f (r + 1) ((0 + 1) % size_mod)
          ([] ++ [r]) (by omega) (by omega)
        refine ⟨e1, ?_⟩
        rw [e2]
        simp
        omega
      · obtain ⟨e1, e2⟩ := find_all_loop_diverges hv nv hn h2 f (r + 1) ((0 + 1) % size_mod)
          ([] ++ [r]) (by omega) (by omega)
        refine ⟨e1, ?_⟩
        rw [e2]
        simp
        omega

theorem find_all_single {mem : memory_t} {h n : span_t} (hv : h.valid mem)
    (nv : n.valid mem) (hn : 0 < n.len)
    (huniq : ∀ o1 o2, occurs mem h n o1 → occurs mem h n o2 → o1 = o2) :
    ∃ c, (find_all naive_t.next_offset mem h n 2).2 = .ok c := by
  obtain ⟨r, hr, hcase⟩ := sub_search hv nv hn 0
  unfold find_all
  rw [find_all_loop, hr]
  simp only
  rcases hcase with ⟨he, _⟩ | ⟨hrne, hocc, _⟩
  · rw [if_neg (by simpa using he)]
    exact ⟨0, rfl⟩
  · have hsmall := (sub_search_small hv nv hn hr hrne).1
    rw [Nat.zero_add] at hocc
    rw [if_pos hrne, hsmall]
    obtain ⟨r', hr', hcase'⟩ := sub_search hv nv hn (r + 1)
    rw [find_all_loop, hr']
    simp only
    rcases hcase' with ⟨he', _⟩ | ⟨_, hocc', _⟩
    · rw [if_neg (by simpa using he')]
      exact ⟨_, rfl⟩
    · have := huniq _ _ hocc hocc'
      omega

/-- C18: for a valid haystack and a valid non-empty needle, `find_all` with
`naive_t` returns after some number of steps if and only if the needle occurs
at no more than one offset of the haystack; when it occurs at two or more
offsets, then for every number of steps the run has not returned, each search
issued so far has led to a call of the callback, and no value passed is
`not_found_k`. -/
theorem find_all_terminates_iff (mem : memory_t) (haystack needle : span_t)
    (hv : haystack.valid mem) (nv : needle.valid mem) (hn : 0 < needle.len) :
    ((∃ fuel c, (find_all naive_t.next_offset mem haystack needle fuel).2 = .ok c) ↔
        ∀ o1 o2, occurs mem haystack needle o1 → occurs mem haystack needle o2 → o1 = o2) ∧
      ((∃ o1 o2, o1 ≠ o2 ∧ occurs mem haystack needle o1 ∧ occurs mem haystack needle o2) →
        ∀ fuel, (find_all naive_t.next_offset mem haystack needle fuel).2 = .error .fuel ∧
          (find_all naive_t.next_offset mem haystack needle fuel).1.length = fuel ∧
          ∀ v, v ∈ (find_all naive_t.next_offset mem haystack needle fuel).1 →
            v ≠ not_found_k) := by
  refine ⟨⟨fun hterm o1 o2 h1 h2 => ?_, fun huniq => ?_⟩, fun htwo fuel => ?_⟩
  · obtain ⟨fuel, c, hc⟩ := hterm
    by_contra hne
    rw [(find_all_diverges hv nv hn hne h1 h2 fuel).1] at hc
    simp at hc
  · obtain ⟨c, hc⟩ := find_all_single hv nv hn huniq
    exact ⟨2, c, hc⟩
  · obtain ⟨o1, o2, hne, h1, h2⟩ := htwo
    obtain ⟨e1, e2⟩ := find_all_diverges hv nv hn hne h1 h2 fuel
    exact ⟨e1, e2, search_chain_ne naive_t.next_offset mem haystack needle _ 0
      (find_all_chain naive_t.next_offset mem haystack needle fuel)⟩

theorem find_all_terminates_iff_witness :
    (find_all naive_t.next_offset mem_blocks haystack_blocks needle_blocks 5).2 = .error .fuel ∧
      (find_all naive_t.next_offset mem_blocks haystack_blocks needle_blocks 5).1.length = 5 ∧
      ∀ v, v ∈ (find_all naive_t.next_offset mem_blocks haystack_blocks needle_blocks 5).1 →
        v ≠ not_found_k :=
  (find_all_terminates_iff mem_blocks haystack_blocks needle_blocks haystack_blocks_valid
    needle_blocks_valid (by decide)).2 ⟨30, 80, by decide, by decide, by decide⟩ 5

/-- C14, as amended: for a valid haystack and a valid non-empty needle, and
`find_all` with `naive_t` run for two steps or more: when the callback is
called, the first value `v0` is the least offset at which the needle occurs,
and the callback is called a second time if and only if the needle occurs at
some offset greater than `v0`, be it one that overlaps the first occurrence:
the search resumes one byte after the start of the match, not `needle.len`
bytes after it.  (Nothing is said of the values passed from the second call
on.) -/
theorem find_all_second_call_iff (mem : memory_t) (haystack needle : span_t)
    (hv : haystack.valid mem) (nv : needle.valid mem) (hn : 0 < needle.len) (fuel v0 : Nat)
    (hfuel : 2 ≤ fuel)
    (h0 : (find_all naive_t.next_offset mem haystack needle fuel).1[0]? = some v0) :
    occurs mem haystack needle v0 ∧ (∀ o, o < v0 → ¬ occurs mem haystack needle o) ∧
      (1 < (find_all naive_t.next_offset mem haystack needle fuel).1.length ↔
        ∃ a, v0 < a ∧ occurs mem haystack needle a) := by
  obtain ⟨f, rfl⟩ : ∃ f, fuel = f + 2 := ⟨fuel - 2, by omega⟩
  obtain ⟨r, hr, hcase⟩ := sub_search hv nv hn 0
  unfold find_all at h0 ⊢
  rw [find_all_loop, hr] at h0 ⊢
  simp only at h0 ⊢
  rcases hcase with ⟨he, _⟩ | ⟨hrne, hocc, hmin⟩
  · rw [if_neg (by simpa using he)] at h0
    simp at h0
  · have hsmall := (sub_search_small hv nv hn hr hrne).1
    rw [Nat.zero_add] at hocc
    rw [if_pos hrne, hsmall] at h0 ⊢
    obtain ⟨r', hr', hcase'⟩ := sub_search hv nv hn (r + 1)
    rw [find_all_loop, hr'] at h0 ⊢
    simp only at h0 ⊢
    have hmin0 : ∀ o, o < r → ¬ occurs mem haystack needle o :=
      fun o ho => hmin o (by omega) (by omega)
    rcases hcase' with ⟨he', hall'⟩ | ⟨hrne', hocc', _⟩
    · rw [if_neg (by simpa using he')] at h0 ⊢
      simp only [List.nil_append, List.getElem?_cons_zero, Option.some.injEq] at h0
      subst h0
      refine ⟨hocc, hmin0, ?_⟩
      simp only [List.nil_append, List.length_singleton, Nat.lt_irrefl, false_iff, not_exists,
        not_and]
      exact fun a ha => hall' a (by omega)
    · rw [if_pos hrne'] at h0 ⊢
      obtain ⟨vs, hvs, _⟩ := find_all_loop_chain naive_t.next_offset mem haystack needle f
        ((r' + 1) % size_mod) (((0 + 1) % size_mod + 1) % size_mod) ([] ++ [r] ++ [r'])
      rw [hvs] at h0 ⊢
      simp only [List.nil_append, List.singleton_append, List.cons_append,
        List.getElem?_cons_zero, Option.some.injEq] at h0
      subst h0
      refine ⟨hocc, hmin0, ?_⟩
      simp only [List.nil_append, List.singleton_append, List.cons_append, List.length_cons]
      exact ⟨fun _ => ⟨r + 1 + r', by omega, hocc'⟩, fun _ => by omega⟩

theorem find_all_second_call_iff_witness :
    (find_all naive_t.next_offset mem_aaaa { data := 4096, len := 4 }
        { data := 4100, len := 2 } 2).1[0]? = some 0 ∧
      occurs mem_aaaa { data := 4096, len := 4 } { data := 4100, len := 2 } 0 ∧
      (1 < (find_all naive_t.next_offset mem_aaaa { data := 4096, len := 4 }
          { data := 4100, len := 2 } 2).1.length ↔
        ∃ a, 0 < a ∧ occurs mem_aaaa { data := 4096, len := 4 } { data := 4100, len := 2 } a) ∧
      occurs mem_aaaa { data := 4096, len := 4 } { data := 4100, len := 2 } 1 :=
  have h := find_all_second_call_iff mem_aaaa { data := 4096, len := 4 }
    { data := 4100, len := 2 } (mem_of_valid 4096 _ 0 4 (by decide) (by decide))
    (mem_of_valid 4096 _ 4 2 (by decide) (by decide)) (by decide) 2 0 (by decide) (by decide)
  ⟨by decide, h.1, h.2.2, by decide⟩

/-- C14 as stated fails: with the needle `"aa"` and the haystack `"aaaa"` the
first two values passed to the callback by `find_all` with `naive_t` are 0
and 0, and the second is not at least `needle.len = 2` greater than the
first. -/
theorem find_all_values_not_needle_len_apart :
    ¬ ∀ (i : Nat) p m,
      (find_all naive_t.next_offset mem_aaaa { data := 4096, len := 4 }
          { data := 4100, len := 2 } 2).1[i]? = some p →
      (find_all naive_t.next_offset mem_aaaa { data := 4096, len := 4 }
          { data := 4100, len := 2 } 2).1[i + 1]? = some m →
      p + 2 ≤ m := by
  intro hall
  have := hall 0 0 0 (by decide) (by decide)
  omega

/-! ## Reads stay inside the spans -/

theorem load8_congr {m1 m2 : memory_t} {p : Nat} (h : m1 p = m2 p) :
    load8 m1 p = load8 m2 p := by
  unfold load8
  rw [h]

theorem load32_congr {m1 m2 : memory_t} {p : Nat} (hp : p + 3 < 2 ^ 64)
    (h : ∀ j, j < 4 → m1 (p + j) = m2 (p + j)) : load32 m1 p = load32 m2 p := by
  have h0 : load8 m1 p = load8 m2 p := load8_congr (h 0 (by omega))
  unfold load32
  rw [mod_small (by omega : p + 1 < 2 ^ 64), mod_small (by omega : p + 2 < 2 ^ 64),
    mod_small (by omega : p + 3 < 2 ^ 64), h0,
    load8_congr (h 1 (by omega)), load8_congr (h 2 (by omega)), load8_congr (h 3 (by omega))]

theorem are_equal_loop_split_eq (amem bmem mem : memory_t) :
    ∀ (fuel k a b : Nat), a + k < 2 ^ 64 → b + k < 2 ^ 64 →
      (∀ j, j < k → amem (a + j) = mem (a + j)) → (∀ j, j < k → bmem (b + j) = mem (b + j)) →
      are_equal_loop_split amem bmem (a + k) fuel a b = are_equal_loop mem (a + k) fuel a b := by
  intro fuel
  induction fuel with
  | zero => intro k a b _ _ _ _; rfl
  | succ f ih =>
    intro k a b ha hb hra hrb
    rw [are_equal_loop_split, are_equal_loop]
    by_cases hk : k = 0
    · subst hk
      simp
    · have hne : a ≠ a + k := by omega
      have h0a := hra 0 (by omega)
      have h0b := hrb 0 (by omega)
      rw [Nat.add_zero] at h0a h0b
      simp only [if_pos hne]
      rw [load8_congr h0a, load8_congr h0b, mod_small (by omega : a + 1 < 2 ^ 64),
        mod_small (by omega : b + 1 < 2 ^ 64), show a + k = (a + 1) + (k - 1) by omega,
        ih (k - 1) (a + 1) (b + 1) (by omega) (by omega)
          (fun j hj => by
            have := hra (j + 1) (by omega)
            rwa [show a + (j + 1) = a + 1 + j by omega] at this)
          (fun j hj => by
            have := hrb (j + 1) (by omega)
            rwa [show b + (j + 1) = b + 1 + j by omega] at this)]

theorem are_equal_split_eq (amem bmem mem : memory_t) (a b len : Nat) (ha : a + len < 2 ^ 64)
    (hb : b + len < 2 ^ 64) (hra : ∀ j, j < len → amem (a + j) = mem (a + j))
    (hrb : ∀ j, j < len → bmem (b + j) = mem (b + j)) :
    are_equal_split amem bmem a b len = are_equal mem a b len := by
  unfold are_equal_split are_equal
  rw [mod_small ha]
  exact are_equal_loop_split_eq amem bmem mem size_mod len a b ha hb hra hrb

theorem prefixed_loop_split_eq {hmem nmem mem : memory_t} {h n : span_t}
    (hfit : h.data + h.len ≤ 2 ^ 63) (nfit : n.data + n.len ≤ 2 ^ 63) (h5 : 5 ≤ n.len)
    (hle : n.len ≤ h.len) (hag : ∀ i, i < h.len → hmem (h.data + i) = mem (h.data + i))
    (nag : ∀ i, i < n.len → nmem (n.data + i) = mem (n.data + i)) (np : Nat) :
    ∀ (fuel off : Nat), off ≤ h.len - n.len + 1 →
      prefixed_loop_split hmem nmem h n (h.data + h.len - n.len) np fuel (h.data + off)
        = prefixed_loop mem h n (h.data + h.len - n.len) np fuel (h.data + off) := by
  intro fuel
  induction fuel with
  | zero => intro off _; rfl
  | succ f ih =>
    intro off hoff
    rw [prefixed_loop_split, prefixed_loop]
    by_cases hin : off ≤ h.len - n.len
    · have hl32 : load32 hmem (h.data + off) = load32 mem (h.data + off) :=
        load32_congr (by omega) (fun j hj => by
          rw [Nat.add_assoc]
          exact hag (off + j) (by omega))
      have heq : are_equal_split hmem nmem ((h.data + off + 4) % size_mod)
          ((n.data + 4) % size_mod) ((n.len + size_mod - 4) % size_mod)
          = are_equal mem ((h.data + off + 4) % size_mod) ((n.data + 4) % size_mod)
            ((n.len + size_mod - 4) % size_mod) := by
        rw [mod_small (by omega : h.data + off + 4 < 2 ^ 64),
          mod_small (by omega : n.data + 4 < 2 ^ 64), sub_small (by omega) (by omega)]
        exact are_equal_split_eq hmem nmem mem _ _ _ (by omega) (by omega)
          (fun j hj => by
            rw [show h.data + off + 4 + j = h.data + (off + 4 + j) by omega]
            exact hag _ (by omega))
          (fun j hj => by
            rw [Nat.add_assoc]
            exact nag _ (by omega))
      have hrec := ih (off + 1) (by omega)
      rw [show h.data + (off + 1) = h.data + off + 1 by omega] at hrec
      rw [hl32, heq, mod_small (by omega : h.data + off + 1 < 2 ^ 64), hrec]
    · simp only [if_neg (by omega : ¬ h.data + off ≤ h.data + h.len - n.len)]

theorem prefixed_split_eq {hmem nmem mem : memory_t} {h n : span_t}
    (hfit : h.data + h.len ≤ 2 ^ 63) (nfit : n.data + n.len ≤ 2 ^ 63) (h5 : 5 ≤ n.len)
    (hle : n.len ≤ h.len) (hag : ∀ i, i < h.len → hmem (h.data + i) = mem (h.data + i))
    (nag : ∀ i, i < n.len → nmem (n.data + i) = mem (n.data + i)) :
    prefixed_t.next_offset_split hmem nmem h n = prefixed_t.next_offset mem h n := by
  unfold prefixed_t.next_offset_split prefixed_t.next_offset
  rw [if_neg (by omega), if_neg (by omega),
    load32_congr (by omega) (fun j hj => nag j (by omega)), h_end_of_eq hfit (by omega)]
  have key := fun np => prefixed_loop_split_eq hfit nfit h5 hle hag nag np size_mod 0 (by omega)
  simp only [Nat.add_zero] at key
  simp only [key]

theorem block_scan_split_eq {hmem nmem mem : memory_t} {h n : span_t}
    (hfit : h.data + h.len ≤ 2 ^ 63) (nfit : n.data + n.len ≤ 2 ^ 63)
    (hle : n.len ≤ h.len) (hag : ∀ i, i < h.len → hmem (h.data + i) = mem (h.data + i))
    (nag : ∀ i, i < n.len → nmem (n.data + i) = mem (n.data + i)) {base width : Nat}
    (hbase : base + width ≤ h.len - n.len) :
    ∀ (fuel i : Nat),
      block_scan_split hmem nmem h n (h.data + base) width fuel i
        = block_scan mem h n (h.data + base) width fuel i := by
  intro fuel
  induction fuel with
  | zero => intro i; rfl
  | succ f ih =>
    intro i
    rw [block_scan_split, block_scan]
    by_cases hi : i < width
    · have heq : are_equal_split hmem nmem ((h.data + base + i) % size_mod) n.data n.len
          = are_equal mem ((h.data + base + i) % size_mod) n.data n.len := by
        rw [mod_small (by omega : h.data + base + i < 2 ^ 64)]
        exact are_equal_split_eq hmem nmem mem _ _ _ (by omega) (by omega)
          (fun j hj => by
            rw [show h.data + base + i + j = h.data + (base + i + j) by omega]
            exact hag _ (by omega))
          (fun j hj => nag j hj)
      rw [heq, ih (i + 1)]
    · simp only [if_neg hi]

theorem autovec_count_congr {hmem mem : memory_t} {h n : span_t}
    (hfit : h.data + h.len ≤ 2 ^ 63) (h5 : 5 ≤ n.len) (hle : n.len ≤ h.len)
    (hag : ∀ i, i < h.len → hmem (h.data + i) = mem (h.data + i)) (np : Nat) {base : Nat}
    (hbase : base + 32 ≤ h.len - n.len) :
    ∀ (fuel i c : Nat),
      autovec_count hmem np (h.data + base) fuel i c
        = autovec_count mem np (h.data + base) fuel i c := by
  intro fuel
  induction fuel with
  | zero => intro i c; rfl
  | succ f ih =>
    intro i c
    rw [autovec_count, autovec_count]
    by_cases hi : i < 32
    · have hl32 : load32 hmem ((h.data + base + i) % size_mod)
          = load32 mem ((h.data + base + i) % size_mod) := by
        rw [mod_small (by omega : h.data + base + i < 2 ^ 64)]
        exact load32_congr (by omega) (fun j hj => by
          rw [show h.data + base + i + j = h.data + (base + i + j) by omega]
          exact hag _ (by omega))
      have key := fun w => ih (i + 1) (c + if np = w then 1 else 0)
      rw [hl32]
      simp only [key]
    · simp only [if_neg hi]

theorem block_loop_split_eq {hmem nmem mem : memory_t} {h n : span_t}
    (hfit : h.data + h.len ≤ 2 ^ 63) (nfit : n.data + n.len ≤ 2 ^ 63) (h5 : 5 ≤ n.len)
    (hle : n.len ≤ h.len) (hag : ∀ i, i < h.len → hmem (h.data + i) = mem (h.data + i))
    (nag : ∀ i, i < n.len → nmem (n.data + i) = mem (n.data + i)) (np : Nat) :
    ∀ (fuel base : Nat), base ≤ h.len →
      block_loop_split hmem nmem h n (h.data + h.len - n.len) 32 (autovec_any hmem np) fuel
          (h.data + base)
        = block_loop mem h n (h.data + h.len - n.len) 32 (autovec_any mem np) fuel
          (h.data + base) := by
  intro fuel
  induction fuel with
  | zero => intro base _; rfl
  | succ f ih =>
    intro base hb
    rw [block_loop_split, block_loop, mod_small (by omega : h.data + base + 32 < 2 ^ 64)]
    by_cases hin : base + 32 ≤ h.len - n.len
    · have hany : autovec_any hmem np (h.data + base) = autovec_any mem np (h.data + base) := by
        unfold autovec_any
        rw [autovec_count_congr hfit h5 hle hag np hin 33 0 0]
      have hscan := block_scan_split_eq hfit nfit hle hag nag hin (32 + 1) 0
      have hrec := ih (base + 32) (by omega)
      rw [show h.data + (base + 32) = h.data + base + 32 by omega] at hrec
      rw [hany, hscan, hrec]
    · simp only [if_neg (by omega : ¬ h.data + base + 32 ≤ h.data + h.len - n.len)]

theorem autovec_split_eq {hmem nmem mem : memory_t} {h n : span_t} (hv : h.valid mem)
    (nv : n.valid mem) (h5 : 5 ≤ n.len) (hle : n.len ≤ h.len)
    (hag : ∀ i, i < h.len → hmem (h.data + i) = mem (h.data + i))
    (nag : ∀ i, i < n.len → nmem (n.data + i) = mem (n.data + i)) :
    prefixed_autovec_t.next_offset_split hmem nmem h n
      = prefixed_autovec_t.next_offset mem h n := by
  have hfit := hv.fits
  have nfit := nv.fits
  obtain ⟨np, hnp⟩ := needle_load32 nv h5
  unfold prefixed_autovec_t.next_offset_split prefixed_autovec_t.next_offset
  rw [if_neg (by omega), if_neg (by omega),
    load32_congr (by omega) (fun j hj => nag j (by omega)), hnp, h_end_of_eq hfit (by omega)]
  simp only
  have hloop := block_loop_split_eq hfit nfit h5 hle hag nag np size_mod 0 (by omega)
  rw [Nat.add_zero] at hloop
  rw [hloop]
  have hd : h.len - n.len - 0 < (h.len - n.len) * 32 + 32 := by omega
  obtain ⟨ex, hex, hcase⟩ := block_loop_spec hv nv hle (by omega : 0 < 32) (by omega : 32 ≤ 64)
    (autovec_filter_complete hv nv h5 hle hnp) (h.len - n.len) size_mod 0
    (by omega) hd (by show h.len - n.len < 2 ^ 64; omega) (fun o ho => by omega)
  rw [Nat.add_zero] at hex
  rw [hex]
  rcases hcase with ⟨r, rfl, _⟩ | ⟨b, rfl, hb, _, _⟩
  · rfl
  · simp only [block_finish_split, block_finish]
    rw [sub_small (by omega) (by omega), show h.data + b - h.data = b by omega]
    obtain ⟨he, hsv⟩ := after_n_valid hv (by omega : b < h.len)
    rw [he]
    rw [prefixed_split_eq (by simp only; omega) nfit h5 (by simp only; omega)
      (fun i hi => by
        simp only at hi ⊢
        rw [Nat.add_assoc]
        exact hag (b + i) (by omega)) nag]

theorem only_on_agrees (mem : memory_t) (s : span_t) :
    ∀ i, i < s.len → only_on mem s (s.data + i) = mem (s.data + i) := by
  intro i hi
  unfold only_on
  rw [if_pos ⟨by omega, by omega⟩]

/-- C17: for a valid haystack and a valid needle with
`5 <= needle.len <= haystack.len`, let every read through a pointer into the
haystack be served by a memory that is readable on the bytes
`haystack[0 .. haystack.len)` alone, and every read through a pointer into the
needle by a memory readable on `needle[0 .. needle.len)` alone, a read of any
other index being a fault.  Then `prefixed_t::next_offset` and
`prefixed_autovec_t::next_offset` run without a fault and return the values
they return on the whole memory: no haystack index from `haystack.len` on
and no needle index from `needle.len` on is read. -/
theorem prefixed_engines_read_in_bounds (mem : memory_t) (haystack needle : span_t)
    (hv : haystack.valid mem) (nv : needle.valid mem) (h5 : 5 ≤ needle.len)
    (hle : needle.len ≤ haystack.len) :
    (∀ a, ¬ (haystack.data ≤ a ∧ a < haystack.data + haystack.len) →
        only_on mem haystack a = none) ∧
      (∀ a, ¬ (needle.data ≤ a ∧ a < needle.data + needle.len) →
        only_on mem needle a = none) ∧
      (∃ r, prefixed_t.next_offset_split (only_on mem haystack) (only_on mem needle)
            haystack needle = .ok r ∧
          prefixed_t.next_offset mem haystack needle = .ok r) ∧
      (∃ r, prefixed_autovec_t.next_offset_split (only_on mem haystack) (only_on mem needle)
            haystack needle = .ok r ∧
          prefixed_autovec_t.next_offset mem haystack needle = .ok r) := by
  refine ⟨fun a ha => ?_, fun a ha => ?_, ?_, ?_⟩
  · unfold only_on
    rw [if_neg ha]
  · unfold only_on
    rw [if_neg ha]
  · obtain ⟨r, hr, _⟩ := prefixed_spec hv nv h5 hle
    refine ⟨r, ?_, hr⟩
    rw [prefixed_split_eq hv.fits nv.fits h5 hle (only_on_agrees mem haystack)
      (only_on_agrees mem needle), hr]
  · obtain ⟨r, hr, _⟩ := autovec_spec hv nv h5 hle
    refine ⟨r, ?_, hr⟩
    rw [autovec_split_eq hv nv h5 hle (only_on_agrees mem haystack)
      (only_on_agrees mem needle), hr]

theorem prefixed_engines_read_in_bounds_witness :
    (∃ r, prefixed_t.next_offset_split (only_on mem_blocks haystack_blocks)
          (only_on mem_blocks needle_blocks) haystack_blocks needle_blocks = .ok r ∧
        prefixed_t.next_offset mem_blocks haystack_blocks needle_blocks = .ok r) ∧
      (∃ r, prefixed_autovec_t.next_offset_split (only_on mem_blocks haystack_blocks)
            (only_on mem_blocks needle_blocks) haystack_blocks needle_blocks = .ok r ∧
          prefixed_autovec_t.next_offset mem_blocks haystack_blocks needle_blocks = .ok r) :=
  (prefixed_engines_read_in_bounds mem_blocks haystack_blocks needle_blocks
    haystack_blocks_valid needle_blocks_valid (by decide) (by decide)).2.2

/-! ## Haystacks shorter than the needle, on an example memory -/

/-- C7 at a haystack shorter than the needle: with the 2-byte haystack at
address 8 and the 12-byte needle stored directly behind it, the pointer
`h_end = haystack.data + haystack.len - needle.len` wraps to `2 ^ 64 - 2`;
`prefixed_t::next_offset` and `prefixed_autovec_t::next_offset` run past the
end of the haystack and return 2, which is not `not_found_k`, although
`2 + needle.len` exceeds `haystack.len` and the needle occurs nowhere in the
haystack; `naive_t::next_offset` returns `not_found_k`. -/
theorem prefixed_engines_return_offset_outside_haystack :
    span_t.valid mem_low { data := 8, len := 2 } ∧
      span_t.valid mem_low { data := 10, len := 12 } ∧
      h_end_of { data := 8, len := 2 } { data := 10, len := 12 } = 2 ^ 64 - 2 ∧
      prefixed_t.next_offset mem_low { data := 8, len := 2 } { data := 10, len := 12 }
        = .ok 2 ∧
      prefixed_autovec_t.next_offset mem_low { data := 8, len := 2 } { data := 10, len := 12 }
        = .ok 2 ∧
      2 ≠ not_found_k ∧ ¬ (2 + 12 ≤ 2) ∧
      (∀ o, ¬ occurs mem_low { data := 8, len := 2 } { data := 10, len := 12 } o) ∧
      naive_t.next_offset mem_low { data := 8, len := 2 } { data := 10, len := 12 }
        = .ok not_found_k :=
  ⟨mem_of_valid 8 _ 0 2 (by decide) (by decide), mem_of_valid 8 _ 2 12 (by decide) (by decide),
    by decide, by decide, by decide, by decide, by decide,
    fun o ho => absurd ho.1 (by simp only; omega), by decide⟩

end av
